import Mathlib

/-!
# Verification of the GanttChart task-collection state engine

Shallow embedding of the core of the GanttChart repository
(`frontend/src/utils/taskUtils.js`, the `useTaskManager` history hook and the
selection-purge effect of the app component), together with proofs about the
claims of the specification.

Modelling conventions:
* JavaScript strings are Lean `String`s; the JS `trim`, `toLowerCase`, and
  number printing are re-implemented on `List Char` (`trimChars`,
  `lowerChars`, `natDigitsAux`) so that all definitions are executable and
  proof-friendly.  Only the ASCII fragment exercised by the program is
  modelled.
* JS `Date` objects are modelled by their local-time calendar fields
  (`JsDate`); `getTime` is the standard proleptic-Gregorian epoch-millisecond
  count (Howard Hinnant's `days_from_civil`, written with natural-number
  division only).  The local time zone is modelled with offset zero, which is
  sound because every claim in scope formats and re-parses dates through the
  same fixed zone.
* `Date.prototype.setTime(start.getTime() + 3600000)` (the end-before-start
  repair) is modelled by the calendar-level `addOneHour`, which is proved to
  advance `getTime` by exactly 3 600 000 ms on valid dates.
* JS numbers that the code stores in task fields are modelled as `Int`
  (`position`, `originalPosition`; `undefined`/non-finite is `none`), and the
  two rounded duration fields are stored in hundredths as `Int`, with
  `Math.round` modelled as exact rational rounding.
-/

/-! ## Characters, digits and decimal printing/parsing -/

/-- The decimal digit character for `n < 10` (JS `String(n)` for one digit). -/
def digitChar (n : Nat) : Char := Char.ofNat (48 + n)

/-- Fuel-driven decimal printer (structural recursion, so that the kernel
can evaluate it); `natDigitsAux` supplies sufficient fuel. -/
def natDigitsFuel : Nat → Nat → List Char
  | 0, n => [digitChar n]
  | fuel + 1, n =>
    if n < 10 then [digitChar n]
    else natDigitsFuel fuel (n / 10) ++ [digitChar (n % 10)]

/-- Decimal digits of `n`, most significant first; mirrors JS `String(n)` for
a non-negative integer. -/
def natDigitsAux (n : Nat) : List Char := natDigitsFuel n n

theorem natDigitsFuel_congr : ∀ (n f1 f2 : Nat), n ≤ f1 → n ≤ f2 →
    natDigitsFuel f1 n = natDigitsFuel f2 n := by
  intro n
  induction n using Nat.strong_induction_on with
  | _ n ih =>
    intro f1 f2 h1 h2
    cases f1 with
    | zero =>
      have hn : n = 0 := by omega
      subst hn
      cases f2 with
      | zero => rfl
      | succ f2 => simp [natDigitsFuel]
    | succ f1 =>
      cases f2 with
      | zero =>
        have hn : n = 0 := by omega
        subst hn
        simp [natDigitsFuel]
      | succ f2 =>
        simp only [natDigitsFuel]
        split
        · rfl
        · next hge =>
          rw [ih (n / 10) (by omega) f1 f2 (by omega) (by omega)]

/-- The defining unfolding of `natDigitsAux`. -/
theorem natDigitsAux_eq (n : Nat) : natDigitsAux n
    = if n < 10 then [digitChar n] else natDigitsAux (n / 10) ++ [digitChar (n % 10)] := by
  unfold natDigitsAux
  cases n with
  | zero => rfl
  | succ m =>
    simp only [natDigitsFuel]
    split
    · rfl
    · next hge =>
      rw [natDigitsFuel_congr ((m + 1) / 10) m ((m + 1) / 10) (by omega) (by omega)]

/-- JS `String(n)` for a natural number. -/
def natToString (n : Nat) : String := ⟨natDigitsAux n⟩

/-- JS `String(n)` for an integer. -/
def intToString (n : Int) : String :=
  if n < 0 then ⟨'-' :: natDigitsAux n.natAbs⟩ else natToString n.natAbs

/-- `String(value).padStart(2, "0")`, as used by the source's `pad`. -/
def pad2 (n : Nat) : List Char :=
  if n < 10 then ['0', digitChar n] else natDigitsAux n

/-- Greedy decimal-number scan: consume leading digit characters,
accumulating their value; returns the value and the unconsumed suffix. -/
def parseNatAux : List Char → Nat → Nat × List Char
  | c :: cs, acc =>
      if c.isDigit then parseNatAux cs (acc * 10 + (c.toNat - 48)) else (acc, c :: cs)
  | [], acc => (acc, [])

/-- Expect one fixed character and consume it. -/
def expectChar (c : Char) : List Char → Option (List Char)
  | x :: xs => if x = c then some xs else none
  | [] => none

/-- Parse exactly two digit characters as a two-digit number. -/
def parse2 : List Char → Option (Nat × List Char)
  | a :: b :: rest =>
      if a.isDigit && b.isDigit then some ((a.toNat - 48) * 10 + (b.toNat - 48), rest)
      else none
  | _ => none

theorem digitChar_toNat {n : Nat} (h : n < 10) : (digitChar n).toNat = 48 + n := by
  interval_cases n <;> decide

theorem digitChar_isDigit {n : Nat} (h : n < 10) : (digitChar n).isDigit = true := by
  interval_cases n <;> decide

theorem natDigitsAux_ne_nil (n : Nat) : natDigitsAux n ≠ [] := by
  rw [natDigitsAux_eq]
  split <;> simp

theorem natDigitsAux_all_digit (n : Nat) : ∀ c ∈ natDigitsAux n, c.isDigit = true := by
  induction n using Nat.strong_induction_on with
  | _ n ih =>
    rw [natDigitsAux_eq]
    split
    · next h => intro c hc; simp at hc; subst hc; exact digitChar_isDigit h
    · next h =>
      intro c hc
      simp only [List.mem_append, List.mem_singleton] at hc
      rcases hc with hc | hc
      · exact ih (n / 10) (Nat.div_lt_self (by omega) (by omega)) c hc
      · subst hc; exact digitChar_isDigit (Nat.mod_lt _ (by omega))

/-- Number of decimal digits printed for `n`. -/
def numDigits (n : Nat) : Nat :=
  if h : n < 10 then 1 else numDigits (n / 10) + 1
decreasing_by exact Nat.div_lt_self (by omega) (by omega)

theorem parseNatAux_notDigit {rest : List Char}
    (h : ∀ c, rest.head? = some c → c.isDigit = false) (acc : Nat) :
    parseNatAux rest acc = (acc, rest) := by
  cases rest with
  | nil => rfl
  | cons c cs =>
    simp only [parseNatAux]
    rw [h c rfl]
    simp

theorem parseNatAux_append_digits (n : Nat) :
    ∀ (acc : Nat) (rest : List Char),
      parseNatAux (natDigitsAux n ++ rest) acc
        = parseNatAux rest (acc * 10 ^ numDigits n + n) := by
  induction n using Nat.strong_induction_on with
  | _ n ih =>
    intro acc rest
    rw [natDigitsAux_eq, numDigits]
    split
    · next h =>
      simp only [List.singleton_append, parseNatAux, digitChar_isDigit h, if_true,
        digitChar_toNat h]
      have : acc * 10 + (48 + n - 48) = acc * 10 ^ 1 + n := by
        rw [pow_one]; omega
      rw [this]
      rfl
    · next h =>
      rw [List.append_assoc, List.singleton_append,
        ih (n / 10) (Nat.div_lt_self (by omega) (by omega)) acc (digitChar (n % 10) :: rest)]
      simp only [parseNatAux, digitChar_isDigit (Nat.mod_lt n (by omega : (0:Nat) < 10)),
        if_true, digitChar_toNat (Nat.mod_lt n (by omega : (0:Nat) < 10))]
      have : (acc * 10 ^ numDigits (n / 10) + n / 10) * 10 + (48 + n % 10 - 48)
          = acc * 10 ^ (numDigits (n / 10) + 1) + n := by
        rw [pow_succ]
        have hn : 10 * (n / 10) + n % 10 = n := Nat.div_add_mod n 10
        have h48 : (48 : Nat) + n % 10 - 48 = n % 10 := by omega
        rw [h48]
        ring_nf
        omega
      rw [this]

theorem parseNatAux_digits (n : Nat) (acc : Nat) (rest : List Char)
    (hrest : ∀ c, rest.head? = some c → c.isDigit = false) :
    parseNatAux (natDigitsAux n ++ rest) acc = (acc * 10 ^ numDigits n + n, rest) := by
  rw [parseNatAux_append_digits, parseNatAux_notDigit hrest]

theorem pad2_eq (n : Nat) (h : n ≤ 99) :
    pad2 n = [digitChar (n / 10), digitChar (n % 10)] := by
  unfold pad2
  split
  · next h10 =>
    have h1 : n / 10 = 0 := by omega
    have h2 : n % 10 = n := by omega
    rw [h1, h2]
    rfl
  · next h10 =>
    rw [natDigitsAux_eq, if_neg (by omega)]
    have hq : n / 10 < 10 := by omega
    rw [natDigitsAux_eq, if_pos hq]
    rfl

theorem parse2_pad2 (n : Nat) (h : n ≤ 99) (rest : List Char) :
    parse2 (pad2 n ++ rest) = some (n, rest) := by
  rw [pad2_eq n h]
  simp only [List.cons_append, List.nil_append, parse2]
  rw [digitChar_isDigit (by omega : n / 10 < 10), digitChar_isDigit (Nat.mod_lt _ (by omega))]
  simp only [Bool.and_self, if_true]
  rw [digitChar_toNat (by omega : n / 10 < 10), digitChar_toNat (Nat.mod_lt _ (by omega))]
  have : (48 + n / 10 - 48) * 10 + (48 + n % 10 - 48) = n := by omega
  rw [this]

/-! ## JS strings: trim and case mapping -/

/-- JS `String.prototype.trim` on the character list (ASCII whitespace). -/
def trimChars (cs : List Char) : List Char :=
  ((cs.dropWhile Char.isWhitespace).reverse.dropWhile Char.isWhitespace).reverse

/-- JS `String.prototype.trim`. -/
def jsTrim (s : String) : String := ⟨trimChars s.data⟩

/-- JS `String.prototype.toLowerCase` (ASCII fragment). -/
def lowerChars (cs : List Char) : List Char := cs.map Char.toLower

/-- JS `value.includes(c)` for a single character. -/
def containsChar (cs : List Char) (c : Char) : Bool := cs.any (fun x => x = c)

/-- JS `value.replace(" ", "T")`: replace the first space, if any. -/
def replaceFirstSpace : List Char → List Char
  | [] => []
  | c :: cs => if c = ' ' then 'T' :: cs else c :: replaceFirstSpace cs

/-! ## The JS `Date` model -/

/-- A JS `Date` in the (fixed) local time zone, at second resolution, given by
its calendar fields.  `month` is 1-based (the source always uses
`getMonth() + 1`). -/
structure JsDate where
  year : Nat
  month : Nat
  day : Nat
  hour : Nat
  minute : Nat
  second : Nat
deriving DecidableEq, Repr

/-- Gregorian leap-year rule. -/
def isLeapYear (y : Nat) : Bool :=
  (y % 4 == 0 && y % 100 != 0) || (y % 400 == 0)

/-- Days in a (1-based) month. -/
def daysInMonth (y m : Nat) : Nat :=
  if m = 2 then (if isLeapYear y then 29 else 28)
  else if m = 4 ∨ m = 6 ∨ m = 9 ∨ m = 11 then 30
  else 31

/-- Days since the Unix epoch of a Gregorian calendar day (Howard Hinnant's
`days_from_civil`, shifted by one 400-year era so that all division is
natural-number division; `146097` days per era makes the shift exact). -/
def daysFromCivil (y m d : Nat) : Int :=
  let yShift : Nat := if m ≤ 2 then y + 399 else y + 400
  let era : Nat := yShift / 400
  let yoe : Nat := yShift % 400
  let mp : Nat := if m ≤ 2 then m + 9 else m - 3
  let doy : Nat := (153 * mp + 2) / 5 + d - 1
  let doe : Nat := yoe * 365 + yoe / 4 - yoe / 100 + doy
  ((era * 146097 + doe : Nat) : Int) - 865565

/-- `Date.prototype.getTime()`: epoch milliseconds. -/
def JsDate.getTime (dt : JsDate) : Int :=
  daysFromCivil dt.year dt.month dt.day * 86400000
    + ((dt.hour * 3600 + dt.minute * 60 + dt.second : Nat) : Int) * 1000

/-- Validity of the calendar fields (what `new Date(string)` accepts for the
ISO-like formats the program emits and re-parses). -/
def JsDate.validB (dt : JsDate) : Bool :=
  1 ≤ dt.month && dt.month ≤ 12 && 1 ≤ dt.day && dt.day ≤ daysInMonth dt.year dt.month
    && dt.hour ≤ 23 && dt.minute ≤ 59 && dt.second ≤ 59

def JsDate.Valid (dt : JsDate) : Prop := dt.validB = true

instance (dt : JsDate) : Decidable dt.Valid := by unfold JsDate.Valid; infer_instance

/-- The calendar day after `dt` (same time of day). -/
def nextDay (dt : JsDate) : JsDate :=
  if dt.day < daysInMonth dt.year dt.month then { dt with day := dt.day + 1 }
  else if dt.month < 12 then { dt with month := dt.month + 1, day := 1 }
  else { dt with year := dt.year + 1, month := 1, day := 1 }

/-- Calendar-level model of `endDate.setTime(startDate.getTime() + 3600000)`:
one hour later.  `getTime_addOneHour` below proves it advances `getTime` by
exactly 3 600 000 ms on valid dates, so it coincides with the millisecond-level
source operation. -/
def addOneHour (dt : JsDate) : JsDate :=
  if dt.hour < 23 then { dt with hour := dt.hour + 1 }
  else { nextDay dt with hour := 0 }

theorem daysInMonth_pos (y m : Nat) : 1 ≤ daysInMonth y m := by
  unfold daysInMonth
  split
  · split <;> omega
  · split <;> omega

theorem daysInMonth_le (y m : Nat) : daysInMonth y m ≤ 31 := by
  unfold daysInMonth
  split
  · split <;> omega
  · split <;> omega

theorem daysFromCivil_succ_day (y m d : Nat) (hd1 : 1 ≤ d) (hd2 : d < daysInMonth y m) :
    daysFromCivil y m (d + 1) = daysFromCivil y m d + 1 := by
  simp only [daysFromCivil]
  split <;> omega

theorem daysFromCivil_succ_month (y m : Nat) (hm1 : 1 ≤ m) (hm2 : m < 12) :
    daysFromCivil y (m + 1) 1 = daysFromCivil y m (daysInMonth y m) + 1 := by
  interval_cases m <;>
    simp only [daysInMonth, isLeapYear, daysFromCivil] <;>
    norm_num <;>
    (try split_ifs) <;>
    (try simp only [Bool.or_eq_true, Bool.and_eq_true, beq_iff_eq, bne_iff_ne, ne_eq] at *) <;>
    omega

theorem daysFromCivil_succ_year (y : Nat) :
    daysFromCivil (y + 1) 1 1 = daysFromCivil y 12 31 + 1 := by
  simp only [daysFromCivil]
  norm_num
  omega

theorem daysFromCivil_nextDay (dt : JsDate) (h : dt.Valid) :
    daysFromCivil (nextDay dt).year (nextDay dt).month (nextDay dt).day
      = daysFromCivil dt.year dt.month dt.day + 1 := by
  have hv := h
  simp only [JsDate.Valid, JsDate.validB, Bool.and_eq_true, decide_eq_true_eq] at hv
  obtain ⟨⟨⟨⟨⟨⟨hm1, hm2⟩, hd1⟩, hd2⟩, -⟩, -⟩, -⟩ := hv
  unfold nextDay
  split
  · next hlt => exact daysFromCivil_succ_day _ _ _ hd1 hlt
  · next hge =>
    have hdeq : dt.day = daysInMonth dt.year dt.month := by omega
    split
    · next hmlt =>
      simp only
      rw [daysFromCivil_succ_month _ _ hm1 hmlt, hdeq]
    · next hmge =>
      have hm12 : dt.month = 12 := by omega
      have hd31 : dt.day = 31 := by
        rw [hdeq, hm12]; rfl
      simp only
      rw [hm12, hd31] at *
      exact daysFromCivil_succ_year dt.year

theorem getTime_addOneHour (dt : JsDate) (h : dt.Valid) :
    (addOneHour dt).getTime = dt.getTime + 3600000 := by
  have hv := h
  simp only [JsDate.Valid, JsDate.validB, Bool.and_eq_true, decide_eq_true_eq] at hv
  obtain ⟨⟨⟨⟨⟨⟨hm1, hm2⟩, hd1⟩, hd2⟩, hh⟩, hmi⟩, hs⟩ := hv
  unfold addOneHour
  split
  · next hlt =>
    simp only [JsDate.getTime]
    omega
  · next hge =>
    have h23 : dt.hour = 23 := by omega
    simp only [JsDate.getTime]
    have hnd : (nextDay dt).hour = dt.hour ∧ (nextDay dt).minute = dt.minute
        ∧ (nextDay dt).second = dt.second := by
      unfold nextDay
      split
      · exact ⟨rfl, rfl, rfl⟩
      · split
        · exact ⟨rfl, rfl, rfl⟩
        · exact ⟨rfl, rfl, rfl⟩
    rw [daysFromCivil_nextDay dt h]
    omega

theorem valid_nextDay (dt : JsDate) (h : dt.Valid) : (nextDay dt).Valid := by
  have hv := h
  simp only [JsDate.Valid, JsDate.validB, Bool.and_eq_true, decide_eq_true_eq] at hv
  obtain ⟨⟨⟨⟨⟨⟨hm1, hm2⟩, hd1⟩, hd2⟩, hh⟩, hmi⟩, hs⟩ := hv
  unfold nextDay
  split
  · next hlt =>
    simp only [JsDate.Valid, JsDate.validB, Bool.and_eq_true, decide_eq_true_eq]
    exact ⟨⟨⟨⟨⟨⟨hm1, hm2⟩, by omega⟩, by omega⟩, hh⟩, hmi⟩, hs⟩
  · next hge =>
    split
    · next hmlt =>
      simp only [JsDate.Valid, JsDate.validB, Bool.and_eq_true, decide_eq_true_eq]
      have hp := daysInMonth_pos dt.year (dt.month + 1)
      exact ⟨⟨⟨⟨⟨⟨by omega, by omega⟩, by omega⟩, by omega⟩, hh⟩, hmi⟩, hs⟩
    · next hmge =>
      simp only [JsDate.Valid, JsDate.validB, Bool.and_eq_true, decide_eq_true_eq]
      have hp := daysInMonth_pos (dt.year + 1) 1
      exact ⟨⟨⟨⟨⟨⟨by omega, by omega⟩, by omega⟩, by omega⟩, hh⟩, hmi⟩, hs⟩

theorem valid_addOneHour (dt : JsDate) (h : dt.Valid) : (addOneHour dt).Valid := by
  have hv := h
  simp only [JsDate.Valid, JsDate.validB, Bool.and_eq_true, decide_eq_true_eq] at hv
  obtain ⟨⟨⟨⟨⟨⟨hm1, hm2⟩, hd1⟩, hd2⟩, hh⟩, hmi⟩, hs⟩ := hv
  unfold addOneHour
  split
  · next hlt =>
    simp only [JsDate.Valid, JsDate.validB, Bool.and_eq_true, decide_eq_true_eq]
    exact ⟨⟨⟨⟨⟨⟨hm1, hm2⟩, hd1⟩, hd2⟩, by omega⟩, hmi⟩, hs⟩
  · next hge =>
    have hnd := valid_nextDay dt h
    simp only [JsDate.Valid, JsDate.validB, Bool.and_eq_true, decide_eq_true_eq] at hnd ⊢
    obtain ⟨⟨⟨⟨⟨⟨m1, m2⟩, d1⟩, d2⟩, -⟩, mi'⟩, s'⟩ := hnd
    exact ⟨⟨⟨⟨⟨⟨m1, m2⟩, d1⟩, d2⟩, by omega⟩, mi'⟩, s'⟩

/-! ## Date strings: `formatIsoLocal`, CSV date format, `coerceToDate` -/

/-- Character list of `formatIsoLocal` (`YYYY-MM-DDTHH:MM:SS`, local time). -/
def formatIsoChars (dt : JsDate) : List Char :=
  natDigitsAux dt.year ++ ('-' :: (pad2 dt.month ++ ('-' :: (pad2 dt.day
    ++ ('T' :: (pad2 dt.hour ++ (':' :: (pad2 dt.minute ++ (':' :: pad2 dt.second)))))))))

/-- `formatIsoLocal(date)` from the source: `YYYY-MM-DDTHH:MM:SS`. -/
def formatIsoLocal (dt : JsDate) : String := ⟨formatIsoChars dt⟩

/-- Character list of the CSV date format (`YYYY-MM-DD HH:MM:SS`). -/
def formatCsvChars (dt : JsDate) : List Char :=
  natDigitsAux dt.year ++ ('-' :: (pad2 dt.month ++ ('-' :: (pad2 dt.day
    ++ (' ' :: (pad2 dt.hour ++ (':' :: (pad2 dt.minute ++ (':' :: pad2 dt.second)))))))))

/-- Optional `:SS` tail of a date-time string (absent seconds read as 0,
matching `new Date("YYYY-MM-DDTHH:MM")`). -/
def parseOptSeconds : List Char → Option Nat
  | [] => some 0
  | r =>
    match expectChar ':' r with
    | none => none
    | some r10 =>
      match parse2 r10 with
      | none => none
      | some (s2, r11) => if r11 = [] then some s2 else none

/-- The fragment of `new Date(string)` exercised by the program: strict
`YYYY-MM-DD`T`HH:MM[:SS]` with in-range calendar fields.  (The JS parser
accepts more formats; the program only ever produces and re-reads this one.) -/
def parseDateChars : List Char → Option JsDate
  | [] => none
  | c :: cs =>
    if c.isDigit then
      match parseNatAux (c :: cs) 0 with
      | (y, r1) =>
        match expectChar '-' r1 with
        | none => none
        | some r2 =>
          match parse2 r2 with
          | none => none
          | some (mo, r3) =>
            match expectChar '-' r3 with
            | none => none
            | some r4 =>
              match parse2 r4 with
              | none => none
              | some (dy, r5) =>
                match expectChar 'T' r5 with
                | none => none
                | some r6 =>
                  match parse2 r6 with
                  | none => none
                  | some (hh, r7) =>
                    match expectChar ':' r7 with
                    | none => none
                    | some r8 =>
                      match parse2 r8 with
                      | none => none
                      | some (mi, r9) =>
                        match parseOptSeconds r9 with
                        | none => none
                        | some ss =>
                          if (JsDate.mk y mo dy hh mi ss).validB
                          then some ⟨y, mo, dy, hh, mi, ss⟩ else none
    else none

/-- `coerceToDate(value)` from the source, for string values (the only kind
that flows through the claims in scope): trim, reject empty, insert the `T`
separator in place of the first space unless one is already present, parse. -/
def coerceToDate (s : String) : Option JsDate :=
  let t := trimChars s.data
  if t = [] then none
  else parseDateChars (if containsChar t 'T' then t else replaceFirstSpace t)

/-- `formatCsvDate(value)` from the source. -/
def formatCsvDate (s : String) : String :=
  match coerceToDate s with
  | none => ""
  | some d => ⟨formatCsvChars d⟩

theorem natDigitsAux_chars (n : Nat) :
    ∀ c ∈ natDigitsAux n, ∃ k, k < 10 ∧ c = digitChar k := by
  induction n using Nat.strong_induction_on with
  | _ n ih =>
    rw [natDigitsAux_eq]
    split
    · next h => intro c hc; simp at hc; exact ⟨n, h, hc⟩
    · next h =>
      intro c hc
      simp only [List.mem_append, List.mem_singleton] at hc
      rcases hc with hc | hc
      · exact ih (n / 10) (Nat.div_lt_self (by omega) (by omega)) c hc
      · exact ⟨n % 10, Nat.mod_lt _ (by omega), hc⟩

theorem digitChar_not_ws {k : Nat} (h : k < 10) : (digitChar k).isWhitespace = false := by
  interval_cases k <;> decide

theorem digitChar_ne {k : Nat} (c : Char) (h : k < 10) (hc : c.isDigit = false) :
    digitChar k ≠ c := by
  intro he
  rw [← he] at hc
  rw [digitChar_isDigit h] at hc
  cases hc

theorem pad2_chars (n : Nat) (h : n ≤ 99) :
    ∀ c ∈ pad2 n, ∃ k, k < 10 ∧ c = digitChar k := by
  rw [pad2_eq n h]
  intro c hc
  simp only [List.mem_cons, List.not_mem_nil, or_false] at hc
  rcases hc with hc | hc
  · exact ⟨n / 10, by omega, hc⟩
  · exact ⟨n % 10, Nat.mod_lt _ (by omega), hc⟩

theorem dropWhile_eq_self_of_head {p : Char → Bool} {cs : List Char}
    (h : ∀ c, cs.head? = some c → p c = false) : cs.dropWhile p = cs := by
  cases cs with
  | nil => rfl
  | cons c cs => simp [List.dropWhile_cons, h c rfl]

theorem trimChars_eq_self {cs : List Char}
    (h1 : ∀ c, cs.head? = some c → c.isWhitespace = false)
    (h2 : ∀ c, cs.getLast? = some c → c.isWhitespace = false) :
    trimChars cs = cs := by
  unfold trimChars
  rw [dropWhile_eq_self_of_head h1]
  rw [dropWhile_eq_self_of_head (by simpa using h2)]
  exact List.reverse_reverse cs

theorem parseDateChars_formatIso (dt : JsDate) (h : dt.Valid) :
    parseDateChars (formatIsoChars dt) = some dt := by
  have hv := h
  simp only [JsDate.Valid, JsDate.validB, Bool.and_eq_true, decide_eq_true_eq] at hv
  obtain ⟨⟨⟨⟨⟨⟨hm1, hm2⟩, hd1⟩, hd2⟩, hh⟩, hmi⟩, hs⟩ := hv
  have hdle := daysInMonth_le dt.year dt.month
  obtain ⟨c0, cs0, hc0⟩ : ∃ a as, natDigitsAux dt.year = a :: as := by
    cases hne : natDigitsAux dt.year with
    | nil => exact absurd hne (natDigitsAux_ne_nil _)
    | cons a as => exact ⟨a, as, rfl⟩
  have hd0 : c0.isDigit = true :=
    natDigitsAux_all_digit _ c0 (by rw [hc0]; exact List.mem_cons_self _ _)
  have hform : formatIsoChars dt = c0 :: (cs0 ++ ('-' :: (pad2 dt.month ++ ('-' :: (pad2 dt.day
        ++ ('T' :: (pad2 dt.hour ++ (':' :: (pad2 dt.minute ++ (':' :: pad2 dt.second)))))))))) := by
    rw [formatIsoChars, hc0, List.cons_append]
  have key : parseNatAux (c0 :: (cs0 ++ ('-' :: (pad2 dt.month ++ ('-' :: (pad2 dt.day
        ++ ('T' :: (pad2 dt.hour ++ (':' :: (pad2 dt.minute ++ (':' :: pad2 dt.second))))))))))) 0
      = (dt.year, '-' :: (pad2 dt.month ++ ('-' :: (pad2 dt.day
        ++ ('T' :: (pad2 dt.hour ++ (':' :: (pad2 dt.minute ++ (':' :: pad2 dt.second))))))))) := by
    rw [← List.cons_append, ← hc0, parseNatAux_digits]
    · simp
    · intro c hc
      simp only [List.head?_cons, Option.some.injEq] at hc
      subst hc
      decide
  have esec : parse2 (pad2 dt.second) = some (dt.second, []) := by
    have hp := parse2_pad2 dt.second (by omega) []
    rwa [List.append_nil] at hp
  rw [hform]
  simp only [parseDateChars, hd0, if_true, key, expectChar, eq_self_iff_true,
    parse2_pad2 dt.month (by omega : dt.month ≤ 99),
    parse2_pad2 dt.day (by omega : dt.day ≤ 99),
    parse2_pad2 dt.hour (by omega : dt.hour ≤ 99),
    parse2_pad2 dt.minute (by omega : dt.minute ≤ 99),
    parseOptSeconds, esec]
  rw [show (⟨dt.year, dt.month, dt.day, dt.hour, dt.minute, dt.second⟩ : JsDate) = dt from rfl]
  rw [JsDate.Valid] at h
  simp [h]

theorem pad2_ne_nil (n : Nat) : pad2 n ≠ [] := by
  unfold pad2
  split
  · simp
  · exact natDigitsAux_ne_nil n

theorem formatIso_split (dt : JsDate) : formatIsoChars dt
    = (natDigitsAux dt.year ++ ['-'] ++ pad2 dt.month ++ ['-'] ++ pad2 dt.day ++ ['T']
        ++ pad2 dt.hour ++ [':'] ++ pad2 dt.minute ++ [':']) ++ pad2 dt.second := by
  simp [formatIsoChars]

theorem formatCsv_split (dt : JsDate) : formatCsvChars dt
    = (natDigitsAux dt.year ++ ['-'] ++ pad2 dt.month ++ ['-'] ++ pad2 dt.day ++ [' ']
        ++ pad2 dt.hour ++ [':'] ++ pad2 dt.minute ++ [':']) ++ pad2 dt.second := by
  simp [formatCsvChars]

theorem formatIsoChars_getLast (dt : JsDate) (h : dt.second ≤ 99) :
    (formatIsoChars dt).getLast? = some (digitChar (dt.second % 10)) := by
  rw [formatIso_split, List.getLast?_append_of_ne_nil _ (pad2_ne_nil _), pad2_eq _ h]
  rfl

theorem formatCsvChars_getLast (dt : JsDate) (h : dt.second ≤ 99) :
    (formatCsvChars dt).getLast? = some (digitChar (dt.second % 10)) := by
  rw [formatCsv_split, List.getLast?_append_of_ne_nil _ (pad2_ne_nil _), pad2_eq _ h]
  rfl

theorem formatIsoChars_head (dt : JsDate) :
    ∃ k, k < 10 ∧ (formatIsoChars dt).head? = some (digitChar k) := by
  obtain ⟨c0, cs0, hc0⟩ : ∃ a as, natDigitsAux dt.year = a :: as := by
    cases hne : natDigitsAux dt.year with
    | nil => exact absurd hne (natDigitsAux_ne_nil _)
    | cons a as => exact ⟨a, as, rfl⟩
  obtain ⟨k, hk, hck⟩ := natDigitsAux_chars dt.year c0 (by rw [hc0]; exact List.mem_cons_self _ _)
  refine ⟨k, hk, ?_⟩
  rw [formatIsoChars, hc0, List.cons_append, List.head?_cons, hck]

theorem formatCsvChars_head (dt : JsDate) :
    ∃ k, k < 10 ∧ (formatCsvChars dt).head? = some (digitChar k) := by
  obtain ⟨c0, cs0, hc0⟩ : ∃ a as, natDigitsAux dt.year = a :: as := by
    cases hne : natDigitsAux dt.year with
    | nil => exact absurd hne (natDigitsAux_ne_nil _)
    | cons a as => exact ⟨a, as, rfl⟩
  obtain ⟨k, hk, hck⟩ := natDigitsAux_chars dt.year c0 (by rw [hc0]; exact List.mem_cons_self _ _)
  refine ⟨k, hk, ?_⟩
  rw [formatCsvChars, hc0, List.cons_append, List.head?_cons, hck]

theorem trimChars_formatIso (dt : JsDate) (h : dt.second ≤ 99) :
    trimChars (formatIsoChars dt) = formatIsoChars dt := by
  obtain ⟨k, hk, hhead⟩ := formatIsoChars_head dt
  apply trimChars_eq_self
  · intro c hc
    rw [hhead] at hc
    cases hc
    exact digitChar_not_ws hk
  · intro c hc
    rw [formatIsoChars_getLast dt h] at hc
    cases hc
    exact digitChar_not_ws (Nat.mod_lt _ (by omega))

theorem trimChars_formatCsv (dt : JsDate) (h : dt.second ≤ 99) :
    trimChars (formatCsvChars dt) = formatCsvChars dt := by
  obtain ⟨k, hk, hhead⟩ := formatCsvChars_head dt
  apply trimChars_eq_self
  · intro c hc
    rw [hhead] at hc
    cases hc
    exact digitChar_not_ws hk
  · intro c hc
    rw [formatCsvChars_getLast dt h] at hc
    cases hc
    exact digitChar_not_ws (Nat.mod_lt _ (by omega))

theorem containsChar_formatIso_T (dt : JsDate) :
    containsChar (formatIsoChars dt) 'T' = true := by
  simp only [containsChar, List.any_eq_true, decide_eq_true_eq]
  refine ⟨'T', ?_, rfl⟩
  simp [formatIsoChars]

theorem formatIsoChars_ne_nil (dt : JsDate) : formatIsoChars dt ≠ [] := by
  obtain ⟨k, hk, hhead⟩ := formatIsoChars_head dt
  intro he
  rw [he] at hhead
  cases hhead

theorem formatCsvChars_ne_nil (dt : JsDate) : formatCsvChars dt ≠ [] := by
  obtain ⟨k, hk, hhead⟩ := formatCsvChars_head dt
  intro he
  rw [he] at hhead
  cases hhead

theorem coerceToDate_formatIsoLocal (dt : JsDate) (h : dt.Valid) :
    coerceToDate (formatIsoLocal dt) = some dt := by
  have hs : dt.second ≤ 99 := by
    have hv := h
    simp only [JsDate.Valid, JsDate.validB, Bool.and_eq_true, decide_eq_true_eq] at hv
    omega
  show coerceToDate ⟨formatIsoChars dt⟩ = some dt
  unfold coerceToDate
  simp only [trimChars_formatIso dt hs, containsChar_formatIso_T dt, if_true,
    formatIsoChars_ne_nil dt, if_false]
  exact parseDateChars_formatIso dt h

theorem digitChar_ne_space {k : Nat} (h : k < 10) : digitChar k ≠ ' ' := by
  interval_cases k <;> decide

theorem digitChar_ne_T {k : Nat} (h : k < 10) : digitChar k ≠ 'T' := by
  interval_cases k <;> decide

theorem replaceFirstSpace_append (P S : List Char) (hP : ∀ c ∈ P, ¬ c = ' ') :
    replaceFirstSpace (P ++ (' ' :: S)) = P ++ ('T' :: S) := by
  induction P with
  | nil => simp [replaceFirstSpace]
  | cons c cs ih =>
    rw [List.cons_append, replaceFirstSpace, if_neg (hP c (List.mem_cons_self _ _)),
      ih (fun x hx => hP x (List.mem_cons_of_mem _ hx)), List.cons_append]

theorem formatCsvChars_mem (dt : JsDate) (hm : dt.month ≤ 99) (hd : dt.day ≤ 99)
    (hh : dt.hour ≤ 99) (hmi : dt.minute ≤ 99) (hs : dt.second ≤ 99) :
    ∀ c ∈ formatCsvChars dt,
      (∃ k, k < 10 ∧ c = digitChar k) ∨ c = '-' ∨ c = ' ' ∨ c = ':' := by
  intro c hc
  simp only [formatCsvChars, List.mem_append, List.mem_cons] at hc
  rcases hc with hc | hc | hc | hc | hc | hc | hc | hc | hc | hc | hc
  · exact Or.inl (natDigitsAux_chars _ c hc)
  · exact Or.inr (Or.inl hc)
  · exact Or.inl (pad2_chars _ hm c hc)
  · exact Or.inr (Or.inl hc)
  · exact Or.inl (pad2_chars _ hd c hc)
  · exact Or.inr (Or.inr (Or.inl hc))
  · exact Or.inl (pad2_chars _ hh c hc)
  · exact Or.inr (Or.inr (Or.inr hc))
  · exact Or.inl (pad2_chars _ hmi c hc)
  · exact Or.inr (Or.inr (Or.inr hc))
  · exact Or.inl (pad2_chars _ hs c hc)

theorem containsChar_formatCsv_T (dt : JsDate) (hm : dt.month ≤ 99) (hd : dt.day ≤ 99)
    (hh : dt.hour ≤ 99) (hmi : dt.minute ≤ 99) (hs : dt.second ≤ 99) :
    containsChar (formatCsvChars dt) 'T' = false := by
  rw [containsChar, List.any_eq_false]
  intro c hc
  simp only [decide_eq_true_eq]
  rcases formatCsvChars_mem dt hm hd hh hmi hs c hc with ⟨k, hk, hck⟩ | hc' | hc' | hc' <;>
    first
      | (subst hck; exact digitChar_ne_T hk)
      | (subst hc'; decide)

theorem replaceFirstSpace_formatCsv (dt : JsDate) (hm : dt.month ≤ 99) (hd : dt.day ≤ 99) :
    replaceFirstSpace (formatCsvChars dt) = formatIsoChars dt := by
  have hsplit : formatCsvChars dt
      = (natDigitsAux dt.year ++ ['-'] ++ pad2 dt.month ++ ['-'] ++ pad2 dt.day)
        ++ (' ' :: (pad2 dt.hour ++ (':' :: (pad2 dt.minute ++ (':' :: pad2 dt.second))))) := by
    simp [formatCsvChars]
  have hsplit2 : formatIsoChars dt
      = (natDigitsAux dt.year ++ ['-'] ++ pad2 dt.month ++ ['-'] ++ pad2 dt.day)
        ++ ('T' :: (pad2 dt.hour ++ (':' :: (pad2 dt.minute ++ (':' :: pad2 dt.second))))) := by
    simp [formatIsoChars]
  rw [hsplit, hsplit2]
  apply replaceFirstSpace_append
  intro c hc
  simp only [List.mem_append, List.mem_cons, List.not_mem_nil, or_false] at hc
  rcases hc with (((hc | hc) | hc) | hc) | hc
  · obtain ⟨k, hk, hck⟩ := natDigitsAux_chars _ c hc
    subst hck; exact digitChar_ne_space hk
  · subst hc; decide
  · obtain ⟨k, hk, hck⟩ := pad2_chars _ hm c hc
    subst hck; exact digitChar_ne_space hk
  · subst hc; decide
  · obtain ⟨k, hk, hck⟩ := pad2_chars _ hd c hc
    subst hck; exact digitChar_ne_space hk

theorem coerceToDate_formatCsv (dt : JsDate) (h : dt.Valid) :
    coerceToDate ⟨formatCsvChars dt⟩ = some dt := by
  have hv := h
  simp only [JsDate.Valid, JsDate.validB, Bool.and_eq_true, decide_eq_true_eq] at hv
  obtain ⟨⟨⟨⟨⟨⟨hm1, hm2⟩, hd1⟩, hd2⟩, hh⟩, hmi⟩, hs⟩ := hv
  have hdle := daysInMonth_le dt.year dt.month
  unfold coerceToDate
  simp only [trimChars_formatCsv dt (by omega),
    containsChar_formatCsv_T dt (by omega) (by omega) (by omega) (by omega) (by omega),
    if_false, formatCsvChars_ne_nil dt,
    replaceFirstSpace_formatCsv dt (by omega) (by omega)]
  exact parseDateChars_formatIso dt h

theorem formatCsvDate_formatIsoLocal (dt : JsDate) (h : dt.Valid) :
    formatCsvDate (formatIsoLocal dt) = ⟨formatCsvChars dt⟩ := by
  unfold formatCsvDate
  rw [coerceToDate_formatIsoLocal dt h]

/-! ## Color presets and resolution (`resolveColorSpec` and helpers) -/

/-- One entry of `COLOR_PRESETS`. -/
structure Preset where
  key : String
  label : String
  color : String
  outline : Bool
deriving DecidableEq, Repr

def presetOrange : Preset := ⟨"orange", "Orange", "#f5642d", false⟩

def presetGrey : Preset := ⟨"grey", "Grey", "#a9a9a9", false⟩

def presetBlack : Preset := ⟨"black", "Black", "#000000", false⟩

def presetBlackOutline : Preset := ⟨"black-outline", "Black Outline", "#000000", true⟩

def COLOR_PRESETS : List Preset :=
  [presetOrange, presetGrey, presetBlack, presetBlackOutline]

def DEFAULT_COLOR : Preset := presetOrange

/-- The `COLOR_LOOKUP` map: for each preset, its lower-cased label, its
lower-cased color and its key are inserted in order, later entries
overwriting earlier ones.  In particular `"#000000"` is first bound to the
`black` preset and then overwritten by `black-outline`. -/
def colorLookup (s : String) : Option Preset :=
  if s = "orange" then some presetOrange
  else if s = "#f5642d" then some presetOrange
  else if s = "grey" then some presetGrey
  else if s = "#a9a9a9" then some presetGrey
  else if s = "black" then some presetBlack
  else if s = "black outline" then some presetBlackOutline
  else if s = "#000000" then some presetBlackOutline
  else if s = "black-outline" then some presetBlackOutline
  else none

/-- `getPreset(value)` from the source: trim, lower-case, look up; `null`
for non-strings (modelled as `none`) and for the empty key. -/
def getPreset (v : Option String) : Option Preset :=
  match v with
  | none => none
  | some s =>
    let key : String := ⟨lowerChars (trimChars s.data)⟩
    if key = "" then none else colorLookup key

/-- A character in `[0-9a-fA-F]`. -/
def isHexDigitChar (c : Char) : Bool :=
  c.isDigit || (('a' ≤ c && c ≤ 'f') || ('A' ≤ c && c ≤ 'F'))

/-- `isValidHexColor(value)` from the source:
`/^#(?:[0-9a-fA-F]{3}|[0-9a-fA-F]{6})$/` on the trimmed string. -/
def isValidHexColor (s : String) : Bool :=
  match trimChars s.data with
  | '#' :: rest => (rest.length = 3 || rest.length = 6) && rest.all isHexDigitChar
  | _ => false

/-- `normaliseHexColor(value)` from the source: trim, prepend `#` when
missing, validate, expand 3-digit form by doubling each digit, upper-case. -/
def normaliseHexColor (s : String) : Option String :=
  let t := trimChars s.data
  if t = [] then none
  else
    let t2 : List Char := if t.head? = some '#' then t else '#' :: t
    if isValidHexColor ⟨t2⟩ then
      let hex := t2.drop 1
      let hex2 := if hex.length = 3 then hex.flatMap (fun c => [c, c]) else hex
      some ⟨'#' :: hex2.map Char.toUpper⟩
    else none

/-- `stringOrNull(value)` from the source, for string inputs: trimmed string,
or `null` when blank.  (The numeric branch `String(value)` is only reachable
from fields this model already stores as strings.) -/
def stringOrNull (s : String) : Option String :=
  let t := jsTrim s
  if t = "" then none else some t

/-- The result shape of `resolveColorSpec`. -/
structure ColorSpec where
  color : String
  label : String
  outline : Bool
  presetKey : Option String
deriving DecidableEq, Repr

/-- `resolveColorSpec(colorValue, colorLabel, outlineFlag)` from the source.
`none` stands for JS `undefined`/`null` arguments. -/
def resolveColorSpec (colorValue colorLabel : Option String)
    (outlineFlag : Option Bool) : ColorSpec :=
  match getPreset colorLabel with
  | some p =>
      { color := p.color, label := p.label,
        outline := outlineFlag.getD p.outline, presetKey := some p.key }
  | none =>
    match getPreset colorValue with
    | some p =>
        { color := p.color, label := p.label,
          outline := outlineFlag.getD p.outline, presetKey := some p.key }
    | none =>
      let fallbackFromLabel : ColorSpec :=
        match colorLabel with
        | some l =>
          if isValidHexColor l then
            let n := normaliseHexColor l
            { color := n.getD l, label := n.getD l,
              outline := outlineFlag.getD false, presetKey := none }
          else if (jsTrim l) ≠ "" then
            { color := DEFAULT_COLOR.color, label := jsTrim l,
              outline := outlineFlag.getD false, presetKey := some DEFAULT_COLOR.key }
          else
            { color := DEFAULT_COLOR.color, label := DEFAULT_COLOR.label,
              outline := outlineFlag.getD DEFAULT_COLOR.outline,
              presetKey := some DEFAULT_COLOR.key }
        | none =>
            { color := DEFAULT_COLOR.color, label := DEFAULT_COLOR.label,
              outline := outlineFlag.getD DEFAULT_COLOR.outline,
              presetKey := some DEFAULT_COLOR.key }
      match colorValue with
      | some v =>
        if isValidHexColor v then
          let n := normaliseHexColor v
          { color := n.getD v,
            label := ((colorLabel.bind stringOrNull).or n).getD v,
            outline := outlineFlag.getD false, presetKey := none }
        else fallbackFromLabel
      | none => fallbackFromLabel

namespace Gantt

/-! ## Tasks, raw records, duration metrics, normalisation -/

/-- The normalised task shape produced by `normaliseTaskRecord`.
`position`/`originalPosition` are `none` for JS `undefined`/non-finite.
`durationHours`/`durationDays` hold hundredths (two-decimal rounding) as
integers. -/
structure Task where
  id : String
  name : String
  start : String
  end_ : String
  color : String
  colorLabel : String
  outline : Bool
  presetKey : Option String
  durationLabel : String
  durationHours : Int
  durationDays : Int
  startLabel : String
  endLabel : String
  position : Option Int
  originalPosition : Option Int
deriving DecidableEq, Repr

/-- A loosely-typed input record, after collapsing the historical field-name
aliases (`Tasks`/`title`/`Task` → `name`, `Start Date` → `start`,
`Completion` → `end`, `Color`/`hex`/`colour` → `color`/`colorLabel`,
`Outline` → `outline`, `ID` → `id`) that the source reads with `??` chains.
`none` is JS `undefined`/`null`/non-string (resp. non-finite, non-boolean). -/
structure RawRecord where
  id : Option String
  name : Option String
  start : Option String
  end_ : Option String
  color : Option String
  colorLabel : Option String
  outline : Option Bool
  presetKey : Option String
  position : Option Int
  originalPosition : Option Int
deriving DecidableEq, Repr

/-- Short month names of the `en-US` date formatter. -/
def monthShort : Nat → String
  | 1 => "Jan" | 2 => "Feb" | 3 => "Mar" | 4 => "Apr" | 5 => "May" | 6 => "Jun"
  | 7 => "Jul" | 8 => "Aug" | 9 => "Sep" | 10 => "Oct" | 11 => "Nov" | 12 => "Dec"
  | _ => "???"

/-- `formatHumanDate(date)`: `DATE_FORMATTER` (`MMM DD, YYYY`) followed by
`TIME_FORMATTER` (12-hour `H:MM AM/PM`). -/
def formatHumanDate (dt : JsDate) : String :=
  monthShort dt.month ++ " " ++ (⟨pad2 dt.day⟩ : String) ++ ", " ++ natToString dt.year
    ++ " " ++ natToString ((dt.hour + 11) % 12 + 1) ++ ":" ++ (⟨pad2 dt.minute⟩ : String)
    ++ " " ++ (if dt.hour < 12 then "AM" else "PM")

/-- Result of `computeDurationMetrics`. -/
structure DurationMetrics where
  durationLabel : String
  durationHours : Int
  durationDays : Int
  startLabel : String
  endLabel : String
deriving DecidableEq, Repr

/-- `computeDurationMetrics(startDate, endDate)` from the source.
`durationHours`/`durationDays` are the two-decimal roundings stored in
hundredths; `Math.round` is modelled as exact rounding of the rational
value (ties away from zero cannot arise on the half-integer grid here;
JS `Math.round` rounds half up, matching `(2a + b) / (2b)` flooring). -/
def computeDurationMetrics (startD endD : JsDate) : DurationMetrics :=
  let diffMs : Nat := (endD.getTime - startD.getTime).toNat
  let totalSeconds : Nat := diffMs / 1000
  let hoursTotal : Nat := totalSeconds / 3600
  let minutes : Nat := (totalSeconds % 3600) / 60
  let days : Nat := hoursTotal / 24
  let hours : Nat := hoursTotal % 24
  let dayPart : List String :=
    if days ≠ 0 then [natToString days ++ " day" ++ (if days = 1 then "" else "s")] else []
  let hourPart : List String :=
    if hours ≠ 0 then [natToString hours ++ " hr" ++ (if hours = 1 then "" else "s")] else []
  let minPart : List String :=
    if days = 0 ∧ minutes ≠ 0 then [natToString minutes ++ " min"] else []
  let durationParts := dayPart ++ hourPart ++ minPart
  { durationLabel :=
      if durationParts = [] then "< 1 hr" else String.intercalate " " durationParts
    durationHours := ((200 * diffMs + 3600000) / 7200000 : Nat)
    durationDays := ((2 * ((200 * diffMs + 3600000) / 7200000) + 24) / 48 : Nat)
    startLabel := formatHumanDate startD
    endLabel := formatHumanDate endD }

/-- `normaliseTaskRecord(record, index)` from the source.  `genId` stands for
the value `generateTaskId()` would return for this record (a fresh random
UUID in JS; the proofs are parametric in it). -/
def normaliseTaskRecord (genId : String) (record : RawRecord) (index : Nat) :
    Option Task :=
  match record.start.bind (fun s => coerceToDate s),
        record.end_.bind (fun s => coerceToDate s) with
  | some startDate, some endDate0 =>
    let endDate := if endDate0.getTime < startDate.getTime then addOneHour startDate
      else endDate0
    let name := (record.name.bind stringOrNull).getD ("Task " ++ natToString (index + 1))
    let colour := resolveColorSpec record.color record.colorLabel record.outline
    let metrics := computeDurationMetrics startDate endDate
    let id := match record.id with
      | some s => if jsTrim s ≠ "" then jsTrim s else genId
      | none => genId
    some
      { id := id
        name := name
        start := formatIsoLocal startDate
        end_ := formatIsoLocal endDate
        color := colour.color
        colorLabel := colour.label
        outline := colour.outline
        presetKey := colour.presetKey.or record.presetKey
        durationLabel := metrics.durationLabel
        durationHours := metrics.durationHours
        durationDays := metrics.durationDays
        startLabel := metrics.startLabel
        endLabel := metrics.endLabel
        position := some (record.position.getD index)
        originalPosition := some (record.originalPosition.getD index) }
  | _, _ => none

/-! ## Ordering: `ensureStableOrder`, the three sorts, `reorderTasksById` -/

/-- Decoration used by `ensureStableOrder`: the task, its sort key
(`Number.isFinite(position) ? Number(position) : idx`) and its array index. -/
structure OrderEntry where
  task : Task
  sortKey : Int
  idx : Nat
deriving DecidableEq, Repr

/-- The comparator of `ensureStableOrder` as a total order:
`sortKey` ascending, ties broken by original array index. -/
def stableLe (a b : OrderEntry) : Prop :=
  a.sortKey < b.sortKey ∨ (a.sortKey = b.sortKey ∧ a.idx ≤ b.idx)

instance : DecidableRel stableLe := fun a b => by unfold stableLe; infer_instance

instance : IsTotal OrderEntry stableLe where
  total a b := by unfold stableLe; omega

instance : IsTrans OrderEntry stableLe where
  trans a b c := by unfold stableLe; omega

def decorateFrom (i : Nat) : List Task → List OrderEntry
  | [] => []
  | t :: ts => ⟨t, t.position.getD i, i⟩ :: decorateFrom (i + 1) ts

/-- The final map of `ensureStableOrder`: dense positions, and
`originalPosition` defaulted to the new index when not finite. -/
def applyPositionsFrom (i : Nat) : List OrderEntry → List Task
  | [] => []
  | e :: es =>
    { e.task with
      position := some (i : Int),
      originalPosition := some (e.task.originalPosition.getD i) }
      :: applyPositionsFrom (i + 1) es

/-- `ensureStableOrder(tasks)` from the source.  The JS `Array.prototype.sort`
with this comparator is modelled by `insertionSort` over `stableLe`; because
distinct array indices make `stableLe` a linear order, any correct sort
produces the same list. -/
def ensureStableOrder (tasks : List Task) : List Task :=
  applyPositionsFrom 0 (List.insertionSort stableLe (decorateFrom 0 tasks))

/-- Generic final `.map((task, idx) => ({ ...task, position: idx }))`. -/
def mapPosFrom {α : Type} (f : α → Task) (i : Nat) : List α → List Task
  | [] => []
  | e :: es => { f e with position := some (i : Int) } :: mapPosFrom f (i + 1) es

/-- `Number.MAX_SAFE_INTEGER`, the fallback sort key for unparseable dates. -/
def MAX_SAFE : Int := 9007199254740991

/-- Decoration used by `sortTasksByStart`/`sortTasksByEnd`. -/
structure TimeEntry where
  task : Task
  startKey : Int
  endKey : Int
  original : Int
  position : Int
  idx : Nat
deriving DecidableEq, Repr

def decorateTimeFrom (i : Nat) : List Task → List TimeEntry
  | [] => []
  | t :: ts =>
    ⟨t, ((coerceToDate t.start).map JsDate.getTime).getD MAX_SAFE,
        ((coerceToDate t.end_).map JsDate.getTime).getD MAX_SAFE,
        t.originalPosition.getD i, t.position.getD i, i⟩ :: decorateTimeFrom (i + 1) ts

/-- Comparator of `sortTasksByStart`: start, end, originalPosition, position,
then array index. -/
def startLe (a b : TimeEntry) : Prop :=
  a.startKey < b.startKey ∨ (a.startKey = b.startKey ∧
    (a.endKey < b.endKey ∨ (a.endKey = b.endKey ∧
      (a.original < b.original ∨ (a.original = b.original ∧
        (a.position < b.position ∨ (a.position = b.position ∧ a.idx ≤ b.idx)))))))

/-- Comparator of `sortTasksByEnd`: end, start, originalPosition, position,
then array index. -/
def endLe (a b : TimeEntry) : Prop :=
  a.endKey < b.endKey ∨ (a.endKey = b.endKey ∧
    (a.startKey < b.startKey ∨ (a.startKey = b.startKey ∧
      (a.original < b.original ∨ (a.original = b.original ∧
        (a.position < b.position ∨ (a.position = b.position ∧ a.idx ≤ b.idx)))))))

instance : DecidableRel startLe := fun a b => by unfold startLe; infer_instance

instance : DecidableRel endLe := fun a b => by unfold endLe; infer_instance

instance : IsTotal TimeEntry startLe where
  total a b := by unfold startLe; omega

instance : IsTrans TimeEntry startLe where
  trans a b c := by unfold startLe; omega

instance : IsTotal TimeEntry endLe where
  total a b := by unfold endLe; omega

instance : IsTrans TimeEntry endLe where
  trans a b c := by unfold endLe; omega

/-- `sortTasksByStart(tasks)` from the source. -/
def sortTasksByStart (tasks : List Task) : List Task :=
  mapPosFrom TimeEntry.task 0 (List.insertionSort startLe (decorateTimeFrom 0 tasks))

/-- `sortTasksByEnd(tasks)` from the source. -/
def sortTasksByEnd (tasks : List Task) : List Task :=
  mapPosFrom TimeEntry.task 0 (List.insertionSort endLe (decorateTimeFrom 0 tasks))

/-- Decoration used by `sortTasksByOriginalPosition`. -/
structure OrigEntry where
  task : Task
  original : Int
  position : Int
  idx : Nat
deriving DecidableEq, Repr

def decorateOrigFrom (i : Nat) : List Task → List OrigEntry
  | [] => []
  | t :: ts =>
    ⟨t, t.originalPosition.getD i, t.position.getD i, i⟩ :: decorateOrigFrom (i + 1) ts

/-- Comparator of `sortTasksByOriginalPosition`: originalPosition, position,
then array index. -/
def origLe (a b : OrigEntry) : Prop :=
  a.original < b.original ∨ (a.original = b.original ∧
    (a.position < b.position ∨ (a.position = b.position ∧ a.idx ≤ b.idx)))

instance : DecidableRel origLe := fun a b => by unfold origLe; infer_instance

instance : IsTotal OrigEntry origLe where
  total a b := by unfold origLe; omega

instance : IsTrans OrigEntry origLe where
  trans a b c := by unfold origLe; omega

/-- `sortTasksByOriginalPosition(tasks)` from the source. -/
def sortTasksByOriginalPosition (tasks : List Task) : List Task :=
  mapPosFrom OrigEntry.task 0 (List.insertionSort origLe (decorateOrigFrom 0 tasks))

/-- `reorderTasksById(tasks, sourceId, targetId, insertAfter)` from the
source.  `targetId = none` is JS `null`/`undefined`; an empty `sourceId` is
the falsy guard. -/
def reorderTasksById (tasks : List Task) (sourceId : String) (targetId : Option String)
    (insertAfter : Bool) : List Task :=
  if sourceId = "" then tasks
  else
    match tasks.findIdx? (fun t => t.id = sourceId) with
    | none => tasks
    | some sourceIndex =>
      match tasks.get? sourceIndex with
      | none => tasks
      | some moved =>
        if targetId = none ∨ targetId = some sourceId then
          mapPosFrom id 0 ((tasks.eraseIdx sourceIndex).insertIdx
            (if insertAfter then (tasks.eraseIdx sourceIndex).length else 0) moved)
        else
          match (tasks.eraseIdx sourceIndex).findIdx? (fun t => some t.id = targetId) with
          | none => mapPosFrom id 0 (tasks.eraseIdx sourceIndex ++ [moved])
          | some targetIndex =>
            -- the source clamps the index into [0, next.length]; only the
            -- upper clamp can ever differ, and the index is always at most
            -- next.length, so `min` mirrors it exactly
            mapPosFrom id 0 ((tasks.eraseIdx sourceIndex).insertIdx
              (min (if insertAfter then targetIndex + 1 else targetIndex)
                (tasks.eraseIdx sourceIndex).length) moved)

/-! ## Collection normalisation and the CSV codec -/

/-- The loop body of `normaliseTaskCollection`: per-record normalisation with
the batch index, re-defaulting `position`/`originalPosition` from the index.
`gen i` models the `generateTaskId()` result for the record at index `i`. -/
def normaliseTaskCollectionFrom (gen : Nat → String) (i : Nat) :
    List RawRecord → List Task
  | [] => []
  | r :: rs =>
    match normaliseTaskRecord (gen i) r i with
    | some item =>
      { item with
        position := some (item.position.getD i),
        originalPosition := some (item.originalPosition.getD i) }
        :: normaliseTaskCollectionFrom gen (i + 1) rs
    | none => normaliseTaskCollectionFrom gen (i + 1) rs

/-- `normaliseTaskCollection(records)` from the source. -/
def normaliseTaskCollection (gen : Nat → String) (records : List RawRecord) : List Task :=
  ensureStableOrder (normaliseTaskCollectionFrom gen 0 records)

/-- A normalised task re-read as a raw record, as happens when a task list is
passed back through `normaliseTaskCollection` (JS reads the same property
names off the task object). -/
def taskToRecord (t : Task) : RawRecord :=
  { id := some t.id, name := some t.name, start := some t.start, end_ := some t.end_,
    color := some t.color, colorLabel := some t.colorLabel, outline := some t.outline,
    presetKey := t.presetKey, position := t.position,
    originalPosition := t.originalPosition }

/-- A parsed CSV row (`Papa.parse` with `header: true` and a trimming
`transform`): every present cell is a string.  `tasksToCsv` emits exactly the
columns below; `id` is never among them. -/
structure CsvRow where
  id : Option String
  tasks : Option String
  startDate : Option String
  completion : Option String
  length : Option String
  color : Option String
  position : Option String
deriving DecidableEq, Repr

/-- `tasksToCsv(tasks)` from the source, at row level (`Papa.unparse` and a
re-`Papa.parse` compose to the identity on these cell values, which are
already trimmed).  The numeric `position` cell is stringified by the codec. -/
def tasksToCsv (tasks : List Task) : List CsvRow :=
  tasks.map (fun t =>
    { id := none,
      tasks := some t.name,
      startDate := some (formatCsvDate t.start),
      completion := some (formatCsvDate t.end_),
      length := some t.durationLabel,
      color := some t.colorLabel,
      position := some (match t.position with | some p => intToString p | none => "") })

/-- The `prepared` mapping inside `convertCsvRowsToTasks`.  Because the CSV
cell `row.position` is a string, `Number.isFinite(row.position)` is `false`
and both positions fall back to the row index. -/
def csvPrepareFrom (i : Nat) : List CsvRow → List RawRecord
  | [] => []
  | row :: rest =>
    { id := row.id.bind stringOrNull,
      name := some ((row.tasks.bind stringOrNull).getD ("Task " ++ natToString (i + 1))),
      start := row.startDate.bind stringOrNull,
      end_ := row.completion.bind stringOrNull,
      color := row.color.bind stringOrNull,
      colorLabel := row.color.bind stringOrNull,
      outline := none,
      presetKey := none,
      position := some (i : Int),
      originalPosition := some (i : Int) } :: csvPrepareFrom (i + 1) rest

/-- `convertCsvRowsToTasks(rows)` from the source. -/
def convertCsvRowsToTasks (gen : Nat → String) (rows : List CsvRow) : List Task :=
  normaliseTaskCollection gen (csvPrepareFrom 0 rows)

/-! ## Structural task equality used by the history engine -/

/-- `areTasksEqual(a, b)` from the source: strict equality on the listed
fourteen keys.  (`originalPosition` is deliberately not among them.) -/
def areTasksEqual (a b : Task) : Bool :=
  a.id == b.id && a.name == b.name && a.start == b.start && a.end_ == b.end_
    && a.color == b.color && a.colorLabel == b.colorLabel && a.outline == b.outline
    && a.presetKey == b.presetKey && a.durationLabel == b.durationLabel
    && a.durationHours == b.durationHours && a.durationDays == b.durationDays
    && a.startLabel == b.startLabel && a.endLabel == b.endLabel
    && a.position == b.position

/-- `areTaskArraysEqual(a, b)` from the source. -/
def areTaskArraysEqual (a b : List Task) : Bool :=
  a.length == b.length && (a.zip b).all (fun p => areTasksEqual p.1 p.2)

/-- `cloneTasks(tasks)`: the source takes shallow copies to decouple
mutation; in this pure model copying is the identity. -/
def cloneTasks (tasks : List Task) : List Task := tasks

/-! ## The mutation & history engine (`useTaskManager`) -/

/-- `HISTORY_LIMIT` from the source. -/
def HISTORY_LIMIT : Nat := 100

/-- The per-dataset state of the hook: the live task list of
`records[datasetMode]` plus the history bucket `{ past, future, present }`.
The stack tops are the list ends (JS `push`/`pop`); `shift` drops the head. -/
structure DatasetState where
  tasks : List Task
  past : List (List Task)
  future : List (List Task)
  present : List Task
deriving DecidableEq, Repr

/-- `sortMode` option of `mutateTasks`. -/
inductive SortMode
  | preserve
  | byStart
  | byEnd
  | byOriginal
deriving DecidableEq, Repr

/-- The candidate-processing pipeline of `mutateTasks`: normalise or
re-order, then apply the requested sort (the `preserve` default re-runs
`ensureStableOrder`). -/
def processCandidate (gen : Nat → String) (sortMode : SortMode) (normalize : Bool)
    (candidate : List Task) : List Task :=
  let base := if normalize then normaliseTaskCollection gen (candidate.map taskToRecord)
    else ensureStableOrder candidate
  match sortMode with
  | SortMode.byStart => sortTasksByStart base
  | SortMode.byEnd => sortTasksByEnd base
  | SortMode.byOriginal => sortTasksByOriginalPosition base
  | SortMode.preserve => ensureStableOrder base

/-- `mutateTasks(mutator, { sortMode, normalize })` from the source, for the
active dataset: process the mutator's candidate, drop the commit when the
result is structurally equal to the current list, otherwise push the
pre-mutation snapshot (evicting the oldest entry beyond `HISTORY_LIMIT`),
clear `future`, and set `present` and the live list to the result. -/
def mutateTasks (gen : Nat → String) (mutator : List Task → List Task)
    (sortMode : SortMode) (normalize : Bool) (st : DatasetState) : DatasetState :=
  let current := st.tasks
  let previousSnapshot := cloneTasks current
  let candidate := mutator previousSnapshot
  let next := processCandidate gen sortMode normalize candidate
  if areTaskArraysEqual current next then st
  else
    let pushed := st.past ++ [previousSnapshot]
    { tasks := next,
      past := if pushed.length > HISTORY_LIMIT then pushed.tail else pushed,
      future := [],
      present := cloneTasks next }

/-- `undo()` from the source: no-op on an empty `past`; otherwise pop `past`
into the live list and `present`, pushing the pre-undo `present` onto
`future`. -/
def undo (st : DatasetState) : DatasetState :=
  match st.past.getLast? with
  | none => st
  | some previousSnapshot =>
    let currentSnapshot := st.present
    { tasks := cloneTasks previousSnapshot,
      past := st.past.dropLast,
      future := st.future ++ [cloneTasks currentSnapshot],
      present := cloneTasks previousSnapshot }

/-- `redo()` from the source: no-op on an empty `future`; otherwise pop
`future` into the live list and `present`, pushing the pre-redo `present`
onto `past` (with the same `HISTORY_LIMIT` eviction as `mutateTasks`). -/
def redo (st : DatasetState) : DatasetState :=
  match st.future.getLast? with
  | none => st
  | some nextSnapshot =>
    let currentSnapshot := st.present
    let pushed := st.past ++ [cloneTasks currentSnapshot]
    { tasks := cloneTasks nextSnapshot,
      past := if pushed.length > HISTORY_LIMIT then pushed.tail else pushed,
      future := st.future.dropLast,
      present := cloneTasks nextSnapshot }

/-! ## The selection-purge effect -/

/-- The effect in the app component that runs on every change of the active
dataset's task list: filter the multi-selection to ids still present; when
anything was removed, re-derive the anchor from the filtered set (its last
element) or fall back to the currently focused id (`selectedTaskId ?? null`).
Returns the new `selectedTaskIds` list and the new anchor. -/
def purgeSelection (tasks : List Task) (prev : List String) (anchor : Option String)
    (selectedTaskId : Option String) : List String × Option String :=
  let filtered := prev.filter (fun i => tasks.any (fun t => t.id = i))
  if filtered.length ≠ prev.length then
    (filtered, (filtered.getLast?).or selectedTaskId)
  else
    (prev, anchor)

/-! ## History-engine lemmas -/

/-- The last `n` elements of a list. -/
def lastN {α : Type} (n : Nat) (l : List α) : List α := l.drop (l.length - n)

theorem lastN_append_lastN {α : Type} (n : Nat) (A B : List α) :
    lastN n (lastN n A ++ B) = lastN n (A ++ B) := by
  unfold lastN
  rw [List.length_append, List.length_drop, List.length_append,
    List.drop_append_eq_append_drop, List.drop_append_eq_append_drop, List.drop_drop,
    List.length_drop]
  congr 1
  · congr 1
    omega
  · congr 1
    omega

theorem lastN_eq_self {α : Type} (n : Nat) (l : List α) (h : l.length ≤ n) :
    lastN n l = l := by
  unfold lastN
  rw [Nat.sub_eq_zero_of_le h, List.drop_zero]

theorem lastN_length {α : Type} (n : Nat) (l : List α) :
    (lastN n l).length = min n l.length := by
  unfold lastN
  rw [List.length_drop]
  omega

/-- One `push`-then-`shift` step equals keeping the last `HISTORY_LIMIT`
entries, provided the stack was within bounds. -/
theorem trimPush_eq_lastN (l : List (List Task)) (x : List Task)
    (h : l.length ≤ HISTORY_LIMIT) :
    (if (l ++ [x]).length > HISTORY_LIMIT then (l ++ [x]).tail else l ++ [x])
      = lastN HISTORY_LIMIT (l ++ [x]) := by
  unfold lastN
  rw [List.length_append]
  simp only [List.length_singleton]
  split
  · next hgt =>
    have hl : l.length = HISTORY_LIMIT := by omega
    have h1 : l.length + 1 - HISTORY_LIMIT = 1 := by omega
    rw [h1]
    cases l with
    | nil => simp [HISTORY_LIMIT] at hl
    | cons a as => simp
  · next hle =>
    have h0 : l.length + 1 - HISTORY_LIMIT = 0 := by omega
    rw [h0, List.drop_zero]

theorem getLast?_concat' {α : Type} (l : List α) (x : α) :
    (l ++ [x]).getLast? = some x := by
  rw [List.getLast?_append_of_ne_nil _ (by simp)]
  rfl

/-- The no-op branch of `mutateTasks`. -/
theorem mutateTasks_noop (gen : Nat → String) (mutator : List Task → List Task)
    (sortMode : SortMode) (normalize : Bool) (st : DatasetState)
    (h : areTaskArraysEqual st.tasks
      (processCandidate gen sortMode normalize (mutator (cloneTasks st.tasks))) = true) :
    mutateTasks gen mutator sortMode normalize st = st := by
  unfold mutateTasks
  simp only [cloneTasks] at *
  rw [if_pos h]

/-- The committing branch of `mutateTasks`. -/
theorem mutateTasks_change (gen : Nat → String) (mutator : List Task → List Task)
    (sortMode : SortMode) (normalize : Bool) (st : DatasetState)
    (h : areTaskArraysEqual st.tasks
      (processCandidate gen sortMode normalize (mutator (cloneTasks st.tasks))) = false) :
    mutateTasks gen mutator sortMode normalize st =
      { tasks := processCandidate gen sortMode normalize (mutator (cloneTasks st.tasks)),
        past := if (st.past ++ [st.tasks]).length > HISTORY_LIMIT
          then (st.past ++ [st.tasks]).tail else st.past ++ [st.tasks],
        future := [],
        present := processCandidate gen sortMode normalize (mutator (cloneTasks st.tasks)) } := by
  unfold mutateTasks
  simp only [cloneTasks] at *
  rw [if_neg (by simp [h])]

/-! ## Pointwise characterisation of the structural equality -/

/-- The fourteen compared keys of `areTasksEqual`, as a proposition.
`originalPosition` is not among them. -/
def tasksAgreeOnComparedKeys (a b : Task) : Prop :=
  a.id = b.id ∧ a.name = b.name ∧ a.start = b.start ∧ a.end_ = b.end_
    ∧ a.color = b.color ∧ a.colorLabel = b.colorLabel ∧ a.outline = b.outline
    ∧ a.presetKey = b.presetKey ∧ a.durationLabel = b.durationLabel
    ∧ a.durationHours = b.durationHours ∧ a.durationDays = b.durationDays
    ∧ a.startLabel = b.startLabel ∧ a.endLabel = b.endLabel
    ∧ a.position = b.position

instance (a b : Task) : Decidable (tasksAgreeOnComparedKeys a b) := by
  unfold tasksAgreeOnComparedKeys
  infer_instance

theorem areTasksEqual_iff (a b : Task) :
    areTasksEqual a b = true ↔ tasksAgreeOnComparedKeys a b := by
  unfold areTasksEqual tasksAgreeOnComparedKeys
  simp [Bool.and_eq_true, and_assoc]

theorem areTaskArraysEqual_of_pointwise (a b : List Task) (hlen : b.length = a.length)
    (h : ∀ (i : Nat) (h1 : i < a.length) (h2 : i < b.length),
      areTasksEqual (a.get ⟨i, h1⟩) (b.get ⟨i, h2⟩) = true) :
    areTaskArraysEqual a b = true := by
  unfold areTaskArraysEqual
  simp only [Bool.and_eq_true, beq_iff_eq, List.all_eq_true]
  refine ⟨hlen.symm, ?_⟩
  intro p hp
  obtain ⟨n, hn⟩ := List.mem_iff_get.mp hp
  have hz := @List.get_zip _ _ a b n
  rw [hz] at hn
  subst hn
  exact h n _ _

/-! ## Commit sequences (for the bounded-history claim) -/

/-- One described mutation: the mutator function plus the `mutateTasks`
options it is committed with. -/
structure Commit where
  mutator : List Task → List Task
  sortMode : SortMode
  normalize : Bool

/-- Commit one mutation on the dataset state. -/
def commitOne (gen : Nat → String) (m : Commit) (st : DatasetState) : DatasetState :=
  mutateTasks gen m.mutator m.sortMode m.normalize st

/-- Commit a sequence of mutations in order. -/
def commitMany (gen : Nat → String) (ms : List Commit) (st : DatasetState) : DatasetState :=
  ms.foldl (fun s m => commitOne gen m s) st

/-- Whether a commit is state-changing (its processed result differs from
the live list, so `mutateTasks` records it). -/
def commitChanges (gen : Nat → String) (m : Commit) (st : DatasetState) : Bool :=
  !areTaskArraysEqual st.tasks
    (processCandidate gen m.sortMode m.normalize (m.mutator (cloneTasks st.tasks)))

/-- Every commit of the sequence is state-changing (computed along the
trace). -/
def allCommitsChange (gen : Nat → String) : List Commit → DatasetState → Bool
  | [], _ => true
  | m :: ms, st => commitChanges gen m st && allCommitsChange gen ms (commitOne gen m st)

/-- The pre-mutation snapshots along the trace: `(preSnapshots …).get i` is
the live task list just before the `(i+1)`-st commit, i.e. exactly the
snapshot that commit pushes onto `past`. -/
def preSnapshots (gen : Nat → String) : List Commit → DatasetState → List (List Task)
  | [], _ => []
  | m :: ms, st => st.tasks :: preSnapshots gen ms (commitOne gen m st)

theorem preSnapshots_length (gen : Nat → String) (ms : List Commit) :
    ∀ st, (preSnapshots gen ms st).length = ms.length := by
  induction ms with
  | nil => intro st; rfl
  | cons m ms ih => intro st; simp [preSnapshots, ih]

theorem commitOne_change_past (gen : Nat → String) (m : Commit) (st : DatasetState)
    (hb : st.past.length ≤ HISTORY_LIMIT) (hc : commitChanges gen m st = true) :
    (commitOne gen m st).past = lastN HISTORY_LIMIT (st.past ++ [st.tasks]) := by
  simp only [commitChanges, Bool.not_eq_true'] at hc
  unfold commitOne
  rw [mutateTasks_change _ _ _ _ _ hc]
  exact trimPush_eq_lastN _ _ hb

theorem commitMany_past (gen : Nat → String) (ms : List Commit) :
    ∀ st, st.past.length ≤ HISTORY_LIMIT → allCommitsChange gen ms st = true →
      (commitMany gen ms st).past = lastN HISTORY_LIMIT (st.past ++ preSnapshots gen ms st)
        ∧ (commitMany gen ms st).past.length ≤ HISTORY_LIMIT := by
  induction ms with
  | nil =>
    intro st h _
    refine ⟨?_, h⟩
    show st.past = _
    rw [preSnapshots, List.append_nil, lastN_eq_self _ _ h]
  | cons m ms ih =>
    intro st h hall
    simp only [allCommitsChange, Bool.and_eq_true] at hall
    obtain ⟨hc, hrest⟩ := hall
    have hco := commitOne_change_past gen m st h hc
    have hlen' : (commitOne gen m st).past.length ≤ HISTORY_LIMIT := by
      rw [hco, lastN_length]
      omega
    obtain ⟨ih1, ih2⟩ := ih (commitOne gen m st) hlen' hrest
    refine ⟨?_, ih2⟩
    show (commitMany gen ms (commitOne gen m st)).past = _
    rw [ih1, hco, lastN_append_lastN]
    congr 1
    rw [preSnapshots, List.append_assoc]
    rfl

theorem commitMany_future (gen : Nat → String) (ms : List Commit) :
    ∀ st, ms ≠ [] → allCommitsChange gen ms st = true →
      (commitMany gen ms st).future = [] := by
  induction ms with
  | nil => intro st h; exact absurd rfl h
  | cons m ms ih =>
    intro st _ hall
    simp only [allCommitsChange, Bool.and_eq_true] at hall
    obtain ⟨hc, hrest⟩ := hall
    cases ms with
    | nil =>
      show (commitOne gen m st).future = []
      simp only [commitChanges, Bool.not_eq_true'] at hc
      unfold commitOne
      rw [mutateTasks_change _ _ _ _ _ hc]
    | cons m2 ms2 =>
      exact ih (commitOne gen m st) (by simp) hrest

/-! ## Claims C2, C3, C4, C10: the history engine -/

/-- **C4.** For every dataset state and every mutator whose processed result
is structurally equal (per-task value comparison via `areTasksEqual`) to the
live list, `mutateTasks` discards the operation entirely: the state — live
task list, `past` and `future` stacks, `present` — is returned unchanged and
no history entry is recorded. -/
theorem c4_noop_commit_discarded (gen : Nat → String) (mutator : List Task → List Task)
    (sortMode : SortMode) (normalize : Bool) (st : DatasetState)
    (h : areTaskArraysEqual st.tasks
      (processCandidate gen sortMode normalize (mutator (cloneTasks st.tasks))) = true) :
    mutateTasks gen mutator sortMode normalize st = st :=
  mutateTasks_noop gen mutator sortMode normalize st h

/-- A concrete normalised task (the output of `normaliseTaskCollection` on a
one-record batch), used as witness data. -/
def taskW : Task :=
  { id := "t1", name := "A", start := "2025-01-01T10:00:00", end_ := "2025-01-02T10:00:00",
    color := "#123456", colorLabel := "My Label", outline := false, presetKey := none,
    durationLabel := "1 day", durationHours := 2400, durationDays := 100,
    startLabel := "Jan 01, 2025 10:00 AM", endLabel := "Jan 02, 2025 10:00 AM",
    position := some 0, originalPosition := some 0 }

/-- A concrete dataset state holding `taskW`, used as witness data. -/
def stW : DatasetState := ⟨[taskW], [], [], [taskW]⟩

/-- Witness for C4: committing the identity mutator on a normalised dataset
changes nothing. -/
theorem c4_noop_commit_discarded_witness :
    mutateTasks (fun _ => "gid") (fun ts => ts) SortMode.preserve false stW = stW :=
  c4_noop_commit_discarded (fun _ => "gid") (fun ts => ts) SortMode.preserve false stW
    (by decide)

/-- **C2.** For every committed (state-changing) mutation on a dataset whose
`past` stack is within the capacity bound, `undo()` followed by `redo()`
restores the entire post-mutation state — live task list, `present`, and both
stacks — exactly; moreover `redo()` with an empty `future` stack and `undo()`
with an empty `past` stack are no-ops that leave the state unchanged. -/
theorem c2_undo_redo_inverse :
    (∀ (gen : Nat → String) (mutator : List Task → List Task) (sortMode : SortMode)
        (normalize : Bool) (st : DatasetState),
        st.past.length ≤ HISTORY_LIMIT →
        areTaskArraysEqual st.tasks (processCandidate gen sortMode normalize
          (mutator (cloneTasks st.tasks))) = false →
        redo (undo (mutateTasks gen mutator sortMode normalize st))
          = mutateTasks gen mutator sortMode normalize st)
    ∧ (∀ s : DatasetState, s.future = [] → redo s = s)
    ∧ (∀ s : DatasetState, s.past = [] → undo s = s) := by
  refine ⟨?_, ?_, ?_⟩
  · intro gen mutator sortMode normalize st hb hch
    rw [mutateTasks_change _ _ _ _ _ hch]
    have hpl : (if (st.past ++ [st.tasks]).length > HISTORY_LIMIT
        then (st.past ++ [st.tasks]).tail else st.past ++ [st.tasks])
        = lastN HISTORY_LIMIT (st.past ++ [st.tasks]) := trimPush_eq_lastN _ _ hb
    set pushed := if (st.past ++ [st.tasks]).length > HISTORY_LIMIT
        then (st.past ++ [st.tasks]).tail else st.past ++ [st.tasks] with hpushdef
    have hplen : pushed.length ≤ HISTORY_LIMIT := by
      rw [hpl, lastN_length]
      omega
    have hpne : pushed ≠ [] := by
      rw [hpl]
      have := lastN_length HISTORY_LIMIT (st.past ++ [st.tasks])
      intro he
      rw [he] at this
      simp only [List.length_nil, List.length_append, List.length_singleton] at this
      unfold HISTORY_LIMIT at this
      omega
    unfold undo
    simp only [cloneTasks]
    rw [List.getLast?_eq_getLast _ hpne]
    simp only
    unfold redo
    simp only [cloneTasks, getLast?_concat', List.nil_append]
    simp only [List.dropLast_append_getLast hpne]
    rw [if_neg (by omega)]
    simp [List.dropLast_single]
  · intro s h
    unfold redo
    rw [h]
    rfl
  · intro s h
    unfold undo
    rw [h]
    rfl

/-- A second concrete task, distinct from `taskW` on compared fields. -/
def taskW2 : Task :=
  { taskW with name := "B", durationHours := 999 }

/-- Witness for C2: a concrete state-changing commit followed by
`undo`/`redo` lands back on the post-commit state. -/
theorem c2_undo_redo_inverse_witness :
    redo (undo (mutateTasks (fun _ => "gid") (fun _ => [taskW2]) SortMode.preserve false stW))
      = mutateTasks (fun _ => "gid") (fun _ => [taskW2]) SortMode.preserve false stW :=
  c2_undo_redo_inverse.1 (fun _ => "gid") (fun _ => [taskW2]) SortMode.preserve false stW
    (by decide) (by decide)

/-- **C3.** The per-dataset `past` stack is bounded at capacity
`HISTORY_LIMIT = 100` with the oldest entry discarded first, and every
state-changing commit clears `future`; in particular, committing 150
state-changing mutations starting from an empty history leaves
`past.length = 100`, holding exactly the pre-mutation snapshots of mutations
51 through 150 (the oldest 50 evicted) in order. -/
theorem c3_bounded_history (gen : Nat → String) (ms : List Commit) (s0 : DatasetState)
    (hlen : ms.length = 150) (hpast : s0.past = [])
    (hchange : allCommitsChange gen ms s0 = true) :
    (commitMany gen ms s0).past = (preSnapshots gen ms s0).drop 50
    ∧ (commitMany gen ms s0).past.length = 100
    ∧ (commitMany gen ms s0).future = []
    ∧ (∀ (gen' : Nat → String) (m : Commit) (st : DatasetState),
        commitChanges gen' m st = true → (commitOne gen' m st).future = [])
    ∧ (∀ (gen' : Nat → String) (m : Commit) (st : DatasetState),
        st.past.length ≤ HISTORY_LIMIT → (commitOne gen' m st).past.length ≤ HISTORY_LIMIT) := by
  have hb : s0.past.length ≤ HISTORY_LIMIT := by
    rw [hpast]
    simp [HISTORY_LIMIT]
  obtain ⟨h1, h2⟩ := commitMany_past gen ms s0 hb hchange
  have hps := preSnapshots_length gen ms s0
  refine ⟨?_, ?_, ?_, ?_, ?_⟩
  · rw [h1, hpast, List.nil_append]
    unfold lastN
    rw [hps, hlen]
    norm_num [HISTORY_LIMIT]
  · rw [h1, lastN_length, hpast, List.nil_append, hps, hlen]
    rfl
  · exact commitMany_future gen ms s0 (by intro he; rw [he] at hlen; cases hlen) hchange
  · intro gen' m st hc
    simp only [commitChanges, Bool.not_eq_true'] at hc
    unfold commitOne
    rw [mutateTasks_change _ _ _ _ _ hc]
  · intro gen' m st hble
    by_cases hc : areTaskArraysEqual st.tasks
        (processCandidate gen' m.sortMode m.normalize (m.mutator (cloneTasks st.tasks))) = true
    · unfold commitOne
      rw [mutateTasks_noop _ _ _ _ _ hc]
      exact hble
    · unfold commitOne
      rw [mutateTasks_change _ _ _ _ _ (by simpa using hc)]
      simp only
      rw [trimPush_eq_lastN _ _ hble, lastN_length]
      omega

/-- One task per step for the C3 witness: the steps differ pairwise in
`durationHours`, so each commit is state-changing, and the task is a fixed
point of `ensureStableOrder`. -/
def mkT (k : Nat) : Task :=
  { id := "x", name := "n", start := "", end_ := "", color := "", colorLabel := "",
    outline := false, presetKey := none, durationLabel := "",
    durationHours := (k : Int), durationDays := 0, startLabel := "", endLabel := "",
    position := some 0, originalPosition := some 0 }

/-- The 150 distinct mutations of the C3 witness. -/
def msW : List Commit :=
  (List.range 150).map (fun k => ⟨fun _ => [mkT k], SortMode.preserve, false⟩)

/-- The empty starting state of the C3 witness. -/
def s0W : DatasetState := ⟨[], [], [], []⟩

set_option maxRecDepth 20000 in
/-- Witness for C3: the concrete 150-commit run. -/
theorem c3_bounded_history_witness :
    (commitMany (fun _ => "gid") msW s0W).past
      = (preSnapshots (fun _ => "gid") msW s0W).drop 50
    ∧ (commitMany (fun _ => "gid") msW s0W).past.length = 100
    ∧ (commitMany (fun _ => "gid") msW s0W).future = []
    ∧ (∀ (gen' : Nat → String) (m : Commit) (st : DatasetState),
        commitChanges gen' m st = true → (commitOne gen' m st).future = [])
    ∧ (∀ (gen' : Nat → String) (m : Commit) (st : DatasetState),
        st.past.length ≤ HISTORY_LIMIT → (commitOne gen' m st).past.length ≤ HISTORY_LIMIT) :=
  c3_bounded_history (fun _ => "gid") msW s0W (by decide) rfl (by decide)

/-- **C10.** The structural equality used by the commit no-op check compares
tasks exactly on the fourteen listed keys and ignores `originalPosition`;
consequently a mutator whose processed result agrees with the live list on
those keys pointwise (even with different `originalPosition` values) is
treated as a no-op: the state is unchanged, keeping the old
`originalPosition` values, and no history entry is pushed. -/
theorem c10_equality_ignores_originalPosition :
    (∀ a b : Task, areTasksEqual a b = true ↔ tasksAgreeOnComparedKeys a b)
    ∧ (∀ (a : Task) (x : Option Int), areTasksEqual a { a with originalPosition := x } = true)
    ∧ (∀ (gen : Nat → String) (mutator : List Task → List Task) (sortMode : SortMode)
        (normalize : Bool) (st : DatasetState),
        (processCandidate gen sortMode normalize (mutator (cloneTasks st.tasks))).length
          = st.tasks.length →
        (∀ (i : Nat) (h1 : i < st.tasks.length)
          (h2 : i < (processCandidate gen sortMode normalize
            (mutator (cloneTasks st.tasks))).length),
          tasksAgreeOnComparedKeys (st.tasks.get ⟨i, h1⟩)
            ((processCandidate gen sortMode normalize
              (mutator (cloneTasks st.tasks))).get ⟨i, h2⟩)) →
        mutateTasks gen mutator sortMode normalize st = st) := by
  refine ⟨areTasksEqual_iff, ?_, ?_⟩
  · intro a x
    rw [areTasksEqual_iff]
    unfold tasksAgreeOnComparedKeys
    repeat first | constructor | rfl
  · intro gen mutator sortMode normalize st hlen hpt
    apply mutateTasks_noop
    apply areTaskArraysEqual_of_pointwise _ _ hlen
    intro i h1 h2
    rw [areTasksEqual_iff]
    exact hpt i h1 h2

/-- Witness for C10: a mutator that only rewrites `originalPosition` commits
nothing — the state keeps the old `originalPosition`. -/
theorem c10_equality_ignores_originalPosition_witness :
    mutateTasks (fun _ => "gid")
      (fun ts => ts.map (fun t => { t with originalPosition := some 5 }))
      SortMode.preserve false stW = stW :=
  c10_equality_ignores_originalPosition.2.2 (fun _ => "gid")
    (fun ts => ts.map (fun t => { t with originalPosition := some 5 }))
    SortMode.preserve false stW (by decide) (by decide)

/-! ## More string lemmas, parser validity -/

theorem dropWhile_head_false {p : Char → Bool} :
    ∀ (l : List Char) (c : Char), (l.dropWhile p).head? = some c → p c = false := by
  intro l
  induction l with
  | nil => intro c h; cases h
  | cons a as ih =>
    intro c h
    rw [List.dropWhile_cons] at h
    split at h
    · exact ih c h
    · next hpa =>
      rw [List.head?_cons, Option.some.injEq] at h
      subst h
      simpa using hpa

theorem getLast?_dropWhile {p : Char → Bool} (l : List Char)
    (h : l.dropWhile p ≠ []) : (l.dropWhile p).getLast? = l.getLast? := by
  obtain ⟨pre, hpre⟩ := (List.dropWhile_suffix p : l.dropWhile p <:+ l)
  conv_rhs => rw [← hpre]
  rw [List.getLast?_append_of_ne_nil _ h]

theorem trimChars_head_not_ws (cs : List Char) :
    ∀ c, (trimChars cs).head? = some c → c.isWhitespace = false := by
  intro c h
  unfold trimChars at h
  rw [List.head?_reverse] at h
  by_cases hne : (cs.dropWhile Char.isWhitespace).reverse.dropWhile Char.isWhitespace = []
  · rw [hne] at h
    cases h
  · rw [getLast?_dropWhile _ hne, List.getLast?_reverse] at h
    exact dropWhile_head_false cs c h

theorem trimChars_getLast_not_ws (cs : List Char) :
    ∀ c, (trimChars cs).getLast? = some c → c.isWhitespace = false := by
  intro c h
  unfold trimChars at h
  rw [List.getLast?_reverse] at h
  exact dropWhile_head_false _ c h

theorem trimChars_idem (cs : List Char) : trimChars (trimChars cs) = trimChars cs :=
  trimChars_eq_self (trimChars_head_not_ws cs) (trimChars_getLast_not_ws cs)

theorem parseDateChars_valid : ∀ (cs : List Char) (dt : JsDate),
    parseDateChars cs = some dt → dt.Valid := by
  intro cs dt h
  unfold parseDateChars at h
  repeat' split at h
  all_goals try cases h
  all_goals unfold JsDate.Valid
  all_goals assumption

theorem coerceToDate_valid (s : String) (dt : JsDate)
    (h : coerceToDate s = some dt) : dt.Valid := by
  simp only [coerceToDate] at h
  split at h
  · cases h
  · exact parseDateChars_valid _ _ h

/-! ## Claim C7: end-before-start auto-repair -/

/-- **C7.** For every raw record whose `start` and `end` both parse to valid
timestamps with the parsed end strictly before the parsed start,
normalisation keeps the record (no error) and produces a task whose end is
exactly one hour after the start: its `end` field is the formatted
`addOneHour` date, whose `getTime` is the start's plus 3 600 000 ms. -/
theorem c7_end_repair (genId : String) (record : RawRecord) (index : Nat)
    (ds de : JsDate)
    (hds : record.start.bind (fun s => coerceToDate s) = some ds)
    (hde : record.end_.bind (fun s => coerceToDate s) = some de)
    (hlt : de.getTime < ds.getTime) :
    ∃ t, normaliseTaskRecord genId record index = some t
      ∧ t.start = formatIsoLocal ds
      ∧ t.end_ = formatIsoLocal (addOneHour ds)
      ∧ (addOneHour ds).getTime = ds.getTime + 3600000 := by
  have hvalid : ds.Valid := by
    obtain ⟨s, hs, hcs⟩ := Option.bind_eq_some.mp hds
    exact coerceToDate_valid s ds hcs
  unfold normaliseTaskRecord
  rw [hds, hde]
  refine ⟨_, rfl, rfl, ?_, getTime_addOneHour ds hvalid⟩
  simp only [if_pos hlt]

/-- The concrete record of the C7 scenario. -/
def recW : RawRecord :=
  { id := some "t9", name := some "Repair", start := some "2025-01-01T10:00",
    end_ := some "2025-01-01T09:00", color := none, colorLabel := none,
    outline := none, presetKey := none, position := none, originalPosition := none }

/-- Witness for C7: `start=2025-01-01T10:00, end=2025-01-01T09:00` yields a
kept task with `end = 2025-01-01T11:00:00`. -/
theorem c7_end_repair_witness :
    ∃ t, normaliseTaskRecord "gid" recW 0 = some t
      ∧ t.start = "2025-01-01T10:00:00"
      ∧ t.end_ = "2025-01-01T11:00:00" := by
  obtain ⟨t, h1, h2, h3, -⟩ :=
    c7_end_repair "gid" recW 0 ⟨2025, 1, 1, 10, 0, 0⟩ ⟨2025, 1, 1, 9, 0, 0⟩
      (by decide) (by decide) (by decide)
  refine ⟨t, h1, ?_, ?_⟩
  · rw [h2]
    decide
  · rw [h3]
    decide

/-! ## Claim C8: custom hex colors -/

/-- **C8, counterexample.** The claim says a 3- or 6-hex-digit `colorValue`
*without* a leading `#` is also used verbatim, but `isValidHexColor` requires
the `#`, so `"aabbcc"` (which matches no preset and would normalise to
`"#AABBCC"`) falls through to the full default-preset fallback instead. -/
theorem c8_counterexample :
    normaliseHexColor "aabbcc" = some "#AABBCC"
    ∧ getPreset (some "aabbcc") = none
    ∧ resolveColorSpec (some "aabbcc") none none
        = { color := "#f5642d", label := "Orange", outline := false,
            presetKey := some "orange" }
    ∧ (resolveColorSpec (some "aabbcc") none none).color ≠ "#AABBCC"
    ∧ (resolveColorSpec (some "aabbcc") none none).presetKey ≠ none := by
  refine ⟨?_, ?_, ?_, ?_, ?_⟩ <;> decide

theorem length_flatMap_pair (l : List Char) :
    (l.flatMap (fun c => [c, c])).length = 2 * l.length := by
  induction l with
  | nil => rfl
  | cons c cs ih => simp [List.flatMap_cons, ih]; omega

theorem all_flatMap_pair (l : List Char) (p : Char → Bool) (h : l.all p = true) :
    (l.flatMap (fun c => [c, c])).all p = true := by
  induction l with
  | nil => rfl
  | cons c cs ih =>
    simp only [List.all_cons, Bool.and_eq_true] at h
    simp [List.flatMap_cons, h.1, ih h.2]

/-- **C8, amended.** For every `colorValue` whose *trimmed form starts with
`#`* followed by 3 or 6 hex digits (the validator requires the leading `#`)
and that matches no preset — nor does the label match one — `resolveColorSpec`
uses the hex color verbatim, normalised by `normaliseHexColor` to the
canonical form `#` + 6 upper-cased hex digits, with `presetKey` null and the
label falling back to the supplied label or the normalised hex string. -/
theorem c8_hex_color_passthrough (colorValue : String) (colorLabel : Option String)
    (outlineFlag : Option Bool)
    (hhex : isValidHexColor colorValue = true)
    (hnp : getPreset (some colorValue) = none)
    (hnpl : getPreset colorLabel = none) :
    ∃ n, normaliseHexColor colorValue = some n
      ∧ resolveColorSpec (some colorValue) colorLabel outlineFlag
          = { color := n, label := (colorLabel.bind stringOrNull).getD n,
              outline := outlineFlag.getD false, presetKey := none }
      ∧ ∃ hex6 : List Char, hex6.length = 6 ∧ hex6.all isHexDigitChar = true
          ∧ n = ⟨'#' :: hex6.map Char.toUpper⟩ := by
  obtain ⟨rest, hrest, hlen, hall⟩ :
      ∃ rest, trimChars colorValue.data = '#' :: rest
        ∧ (rest.length = 3 ∨ rest.length = 6) ∧ rest.all isHexDigitChar = true := by
    unfold isValidHexColor at hhex
    split at hhex
    · next rest heq =>
      simp only [Bool.and_eq_true, Bool.or_eq_true, decide_eq_true_eq] at hhex
      exact ⟨rest, heq, hhex.1, hhex.2⟩
    · cases hhex
  have hnorm : normaliseHexColor colorValue
      = some ⟨'#' :: ((if rest.length = 3 then rest.flatMap (fun c => [c, c]) else rest).map
          Char.toUpper)⟩ := by
    unfold normaliseHexColor
    rw [hrest]
    rw [if_neg (by simp)]
    simp only [List.head?_cons, eq_self_iff_true, if_true]
    have hvalid2 : isValidHexColor ⟨'#' :: rest⟩ = true := by
      have : trimChars (⟨'#' :: rest⟩ : String).data = '#' :: rest := by
        rw [show (⟨'#' :: rest⟩ : String).data = '#' :: rest from rfl, ← hrest]
        exact trimChars_idem colorValue.data
      unfold isValidHexColor
      rw [this]
      simp only [Bool.and_eq_true, Bool.or_eq_true, decide_eq_true_eq]
      exact ⟨hlen, hall⟩
    rw [if_pos hvalid2]
    rfl
  refine ⟨_, hnorm, ?_, ?_⟩
  · unfold resolveColorSpec
    rw [hnpl, hnp]
    simp only
    rw [if_pos hhex, hnorm]
    simp only [Option.getD_some]
    congr 1
    cases colorLabel.bind stringOrNull <;> rfl
  · refine ⟨if rest.length = 3 then rest.flatMap (fun c => [c, c]) else rest, ?_, ?_, rfl⟩
    · split
      · next h3 => rw [length_flatMap_pair, h3]
      · next h3 =>
        rcases hlen with h | h
        · exact absurd h h3
        · exact h
    · split
      · exact all_flatMap_pair rest _ hall
      · exact hall

/-- Witness for the amended C8: `"#abc"` with a free label. -/
theorem c8_hex_color_passthrough_witness :
    ∃ n, normaliseHexColor "#abc" = some n
      ∧ resolveColorSpec (some "#abc") (some "My Label") none
          = { color := n, label := ((some "My Label").bind stringOrNull).getD n,
              outline := false, presetKey := none }
      ∧ ∃ hex6 : List Char, hex6.length = 6 ∧ hex6.all isHexDigitChar = true
          ∧ n = ⟨'#' :: hex6.map Char.toUpper⟩ := by
  have h := c8_hex_color_passthrough "#abc" (some "My Label") none
    (by decide) (by decide) (by decide)
  obtain ⟨n, h1, h2, h3⟩ := h
  exact ⟨n, h1, by rw [h2]; rfl, h3⟩

/-! ## Claim C9: selection purge -/

/-- **C9, counterexample.** The purge effect only rewrites the anchor when
the multi-selection list `selectedTaskIds` shrank.  With an empty
multi-selection and an anchor set by a plain click (`selectedTaskIds = []`,
anchor `"A"`), deleting task `A` leaves the anchor as the id `"A"`, which is
absent from the dataset — contradicting "never left as an id absent from the
dataset". -/
theorem c9_counterexample :
    (purgeSelection [] [] (some "A") none).2 = some "A"
    ∧ (([] : List Task).any (fun t => t.id = "A")) = false
    ∧ (purgeSelection [] [] (some "A") none).1 = [] := by
  refine ⟨?_, ?_, ?_⟩ <;> decide

/-- **C9, amended.** After any change to the active dataset's task list, the
selection set contains only ids of tasks currently present; and *when the
removed anchor was a member of the multi-selection set* (and the focused id
is absent or valid), the anchor is reassigned to the last remaining selected
id in display order, or to the currently focused task, or to null — never
left as an id absent from the dataset.  (An anchor outside the
multi-selection set is not revalidated, per the counterexample.) -/
theorem c9_selection_purge (tasks : List Task) (prev : List String)
    (anchor : Option String) (selectedTaskId : Option String) :
    (∀ i ∈ (purgeSelection tasks prev anchor selectedTaskId).1,
        tasks.any (fun t => t.id = i) = true)
    ∧ (∀ a, anchor = some a → a ∈ prev → tasks.any (fun t => t.id = a) = false →
        (selectedTaskId = none
          ∨ ∃ f, selectedTaskId = some f ∧ tasks.any (fun t => t.id = f) = true) →
        ((purgeSelection tasks prev anchor selectedTaskId).2 = none
          ∨ ∃ b, (purgeSelection tasks prev anchor selectedTaskId).2 = some b
              ∧ tasks.any (fun t => t.id = b) = true)) := by
  constructor
  · intro i hi
    simp only [purgeSelection] at hi
    split at hi
    · exact (List.mem_filter.mp hi).2
    · next hlen =>
      have heq : (List.filter (fun i => tasks.any fun t => decide (t.id = i)) prev).length
          = prev.length := by omega
      exact List.filter_length_eq_length.mp heq i hi
  · intro a ha hmem hgone hfoc
    have hne : (prev.filter (fun i => tasks.any (fun t => t.id = i))).length ≠ prev.length := by
      intro he
      have hall := List.filter_length_eq_length.mp he
      have := hall a hmem
      simp only [hgone] at this
      cases this
    simp only [purgeSelection]
    rw [if_pos hne]
    simp only
    cases hgl : (prev.filter (fun i => tasks.any (fun t => t.id = i))).getLast? with
    | some b =>
      right
      refine ⟨b, by simp [Option.or], ?_⟩
      have hb := List.mem_of_getLast?_eq_some hgl
      exact (List.mem_filter.mp hb).2
    | none =>
      rcases hfoc with hf | ⟨f, hf, hfp⟩
      · left
        simp [Option.or, hf]
      · right
        exact ⟨f, by simp [Option.or, hf], hfp⟩

/-- Witness for the amended C9: deleting the anchor `"zz"` from the
multi-selection reassigns the anchor to the last remaining selected id. -/
theorem c9_selection_purge_witness :
    (∀ i ∈ (purgeSelection [taskW] ["t1", "zz"] (some "zz") none).1,
        [taskW].any (fun t => t.id = i) = true)
    ∧ ((purgeSelection [taskW] ["t1", "zz"] (some "zz") none).2 = none
        ∨ ∃ b, (purgeSelection [taskW] ["t1", "zz"] (some "zz") none).2 = some b
            ∧ [taskW].any (fun t => t.id = b) = true) := by
  have h := c9_selection_purge [taskW] ["t1", "zz"] (some "zz") none
  exact ⟨h.1, h.2 "zz" rfl (by decide) (by decide) (Or.inl rfl)⟩

/-! ## Claim C5: `ensureStableOrder` -/

theorem applyPositionsFrom_length : ∀ (l : List OrderEntry) (i : Nat),
    (applyPositionsFrom i l).length = l.length := by
  intro l
  induction l with
  | nil => intro i; rfl
  | cons e es ih => intro i; simp [applyPositionsFrom, ih]

theorem decorateFrom_length : ∀ (ts : List Task) (i : Nat),
    (decorateFrom i ts).length = ts.length := by
  intro ts
  induction ts with
  | nil => intro i; rfl
  | cons t ts ih => intro i; simp [decorateFrom, ih]

theorem applyPositionsFrom_map_position : ∀ (l : List OrderEntry) (i : Nat),
    (applyPositionsFrom i l).map (fun t => t.position)
      = (List.range' i l.length).map (fun k => some ((k : Nat) : Int)) := by
  intro l
  induction l with
  | nil => intro i; rfl
  | cons e es ih =>
    intro i
    simp only [applyPositionsFrom, List.map_cons, List.length_cons, List.range'_succ,
      ih (i + 1)]

theorem ensureStableOrder_length (ts : List Task) :
    (ensureStableOrder ts).length = ts.length := by
  unfold ensureStableOrder
  rw [applyPositionsFrom_length, (List.perm_insertionSort stableLe _).length_eq,
    decorateFrom_length]

theorem ensureStableOrder_positions (ts : List Task) :
    (ensureStableOrder ts).map (fun t => t.position)
      = (List.range ts.length).map (fun k => some ((k : Nat) : Int)) := by
  unfold ensureStableOrder
  rw [applyPositionsFrom_map_position, (List.perm_insertionSort stableLe _).length_eq,
    decorateFrom_length, List.range_eq_range']

theorem mem_decorateFrom_key : ∀ (ts : List Task) (j : Nat),
    (∀ k (h : k < ts.length), (ts.get ⟨k, h⟩).position = some ((j + k : Nat) : Int)) →
    ∀ e ∈ decorateFrom j ts, e.sortKey = (e.idx : Int) ∧ j ≤ e.idx := by
  intro ts
  induction ts with
  | nil => intro j _ e he; cases he
  | cons t ts ih =>
    intro j hd e he
    rw [decorateFrom] at he
    rcases List.mem_cons.mp he with he | he
    · subst he
      have h0 := hd 0 (by simp)
      rw [show (t :: ts).get ⟨0, by simp⟩ = t from rfl] at h0
      refine ⟨?_, Nat.le_refl j⟩
      show t.position.getD (j : Int) = (j : Int)
      rw [h0]
      simp
    · have hshift : ∀ k (h : k < ts.length),
          (ts.get ⟨k, h⟩).position = some (((j + 1) + k : Nat) : Int) := by
        intro k h
        have := hd (k + 1) (by simpa using Nat.succ_lt_succ h)
        have harith : (j + (k + 1) : Nat) = j + 1 + k := by omega
        simpa [harith] using this
      obtain ⟨h1, h2⟩ := ih (j + 1) hshift e he
      exact ⟨h1, by omega⟩

theorem decorateFrom_sorted_of_dense : ∀ (ts : List Task) (i : Nat),
    (∀ k (h : k < ts.length), (ts.get ⟨k, h⟩).position = some ((i + k : Nat) : Int)) →
    List.Sorted stableLe (decorateFrom i ts) := by
  intro ts
  induction ts with
  | nil => intro i _; exact List.sorted_nil
  | cons t ts ih =>
    intro i hd
    have hshift : ∀ k (h : k < ts.length),
        (ts.get ⟨k, h⟩).position = some (((i + 1) + k : Nat) : Int) := by
      intro k h
      have := hd (k + 1) (by simpa using Nat.succ_lt_succ h)
      have harith : (i + (k + 1) : Nat) = i + 1 + k := by omega
      simpa [harith] using this
    rw [decorateFrom, List.sorted_cons]
    constructor
    · intro e he
      obtain ⟨hkey, hge⟩ := mem_decorateFrom_key ts (i + 1) hshift e he
      have h0 := hd 0 (by simp)
      rw [show (t :: ts).get ⟨0, by simp⟩ = t from rfl] at h0
      unfold stableLe
      left
      show t.position.getD (i : Int) < e.sortKey
      rw [h0, hkey]
      simp only [Option.getD_some]
      have : (i : Int) < (e.idx : Int) := by
        push_cast
        omega
      simpa using this
    · exact ih (i + 1) hshift

theorem option_some_getD {o : Option Int} (h : o.isSome = true) (d : Int) :
    some (o.getD d) = o := by
  cases o with
  | none => cases h
  | some v => rfl

theorem applyPositionsFrom_decorateFrom_eq : ∀ (ts : List Task) (i : Nat),
    (∀ k (h : k < ts.length), (ts.get ⟨k, h⟩).position = some ((i + k : Nat) : Int)) →
    (∀ t ∈ ts, (t.originalPosition).isSome = true) →
    applyPositionsFrom i (decorateFrom i ts) = ts := by
  intro ts
  induction ts with
  | nil => intro i _ _; rfl
  | cons t ts ih =>
    intro i hd ho
    rw [decorateFrom, applyPositionsFrom]
    congr 1
    · have h0 := hd 0 (by simp)
      rw [show (t :: ts).get ⟨0, by simp⟩ = t from rfl] at h0
      have h0' : t.position = some ((i : Nat) : Int) := by simpa using h0
      have ho' := ho t (List.mem_cons_self _ _)
      rw [option_some_getD ho', ← h0']
    · apply ih (i + 1)
      · intro k h
        have := hd (k + 1) (by simpa using Nat.succ_lt_succ h)
        have harith : (i + (k + 1) : Nat) = i + 1 + k := by omega
        simpa [harith] using this
      · intro u hu
        exact ho u (List.mem_cons_of_mem _ hu)

/-- **C5.** For every input list of `n` tasks, `ensureStableOrder` returns a
list whose `position` values are exactly `0..n-1` (no gaps, no duplicates);
the underlying reordering is a permutation of the decorated input sorted by
the comparator "existing finite `position` value, ties broken by original
array index" (`stableLe` — ids play no role in it); and for input already
ordered with dense positions `0..n-1` the sort is the identity permutation
(pass-through), which is literal equality `ensureStableOrder ts = ts` when
every task already carries an `originalPosition`. -/
theorem c5_ensureStableOrder (ts : List Task) :
    ((ensureStableOrder ts).map (fun t => t.position)
        = (List.range ts.length).map (fun k => some ((k : Nat) : Int)))
    ∧ (∃ l, l.Perm (decorateFrom 0 ts) ∧ List.Sorted stableLe l
        ∧ ensureStableOrder ts = applyPositionsFrom 0 l)
    ∧ ((∀ k (h : k < ts.length), (ts.get ⟨k, h⟩).position = some ((k : Nat) : Int)) →
        ensureStableOrder ts = applyPositionsFrom 0 (decorateFrom 0 ts)
        ∧ ((∀ t ∈ ts, (t.originalPosition).isSome = true) → ensureStableOrder ts = ts)) := by
  refine ⟨ensureStableOrder_positions ts, ?_, ?_⟩
  · exact ⟨List.insertionSort stableLe (decorateFrom 0 ts),
      List.perm_insertionSort stableLe _, List.sorted_insertionSort stableLe _, rfl⟩
  · intro hd
    have hd0 : ∀ k (h : k < ts.length),
        (ts.get ⟨k, h⟩).position = some ((0 + k : Nat) : Int) := by
      intro k h
      simpa using hd k h
    have hsorted := decorateFrom_sorted_of_dense ts 0 hd0
    have heq : List.insertionSort stableLe (decorateFrom 0 ts) = decorateFrom 0 ts :=
      hsorted.insertionSort_eq
    have hmain : ensureStableOrder ts = applyPositionsFrom 0 (decorateFrom 0 ts) := by
      unfold ensureStableOrder
      rw [heq]
    refine ⟨hmain, ?_⟩
    intro ho
    rw [hmain]
    exact applyPositionsFrom_decorateFrom_eq ts 0 hd0 ho

/-- A task list with dense positions and assigned original positions, for the
C5 witness. -/
def tsW5 : List Task := [taskW, { taskW2 with position := some 1, originalPosition := some 1 }]

/-- Witness for C5: density and exact pass-through on a concrete
already-ordered list. -/
theorem c5_ensureStableOrder_witness :
    (ensureStableOrder tsW5).map (fun t => t.position)
        = (List.range tsW5.length).map (fun k => some ((k : Nat) : Int))
    ∧ ensureStableOrder tsW5 = tsW5 := by
  have h := c5_ensureStableOrder tsW5
  exact ⟨h.1, (h.2.2 (by decide)).2 (by decide)⟩

/-! ## Claim C6: restoring the original order -/

/-- `{...task, position: …}` keeps every other field; erasing `position`
makes two tasks comparable up to the only field the reorder/sort operations
rewrite. -/
def stripPos (t : Task) : Task := { t with position := none }

/-- The `originalPosition` value of a task that carries one. -/
def origValue (t : Task) : Int := t.originalPosition.getD 0

/-- A user operation from the claim: a drag-reorder or a time-based sort. -/
inductive Op
  | reorder (sourceId : String) (targetId : Option String) (insertAfter : Bool)
  | byStart
  | byEnd

/-- Apply one operation. -/
def applyOp : Op → List Task → List Task
  | Op.reorder s t a, l => reorderTasksById l s t a
  | Op.byStart, l => sortTasksByStart l
  | Op.byEnd, l => sortTasksByEnd l

/-- Apply a finite sequence of operations in order. -/
def applyOps (ops : List Op) (l : List Task) : List Task :=
  ops.foldl (fun acc op => applyOp op acc) l

theorem perm_insertIdx_cons {α : Type} (a : α) :
    ∀ (i : Nat) (l : List α), i ≤ l.length → (l.insertIdx i a).Perm (a :: l) := by
  intro i
  induction i with
  | zero => intro l _; rw [List.insertIdx_zero]
  | succ i ih =>
    intro l hle
    cases l with
    | nil => simp at hle
    | cons b l =>
      rw [List.insertIdx_succ_cons]
      exact ((ih l (by simpa using hle)).cons b).trans (List.Perm.swap a b l)

theorem perm_get_cons_eraseIdx {α : Type} :
    ∀ (l : List α) (i : Nat) (h : i < l.length), (l.get ⟨i, h⟩ :: l.eraseIdx i).Perm l := by
  intro l
  induction l with
  | nil => intro i h; simp at h
  | cons b l ih =>
    intro i h
    cases i with
    | zero => rfl
    | succ i =>
      have h' : i < l.length := by simpa using h
      show ((b :: l).get ⟨i + 1, h⟩ :: b :: l.eraseIdx i).Perm (b :: l)
      have hget : (b :: l).get ⟨i + 1, h⟩ = l.get ⟨i, h'⟩ := rfl
      rw [hget]
      exact (List.Perm.swap b _ _).trans ((ih i h').cons b)

theorem mapPosFrom_map_strip {α : Type} (f : α → Task) :
    ∀ (l : List α) (i : Nat), (mapPosFrom f i l).map stripPos = l.map (fun e => stripPos (f e)) := by
  intro l
  induction l with
  | nil => intro i; rfl
  | cons e es ih =>
    intro i
    simp only [mapPosFrom, List.map_cons, ih (i + 1)]
    rfl

theorem decorateTimeFrom_map_task :
    ∀ (ts : List Task) (i : Nat), (decorateTimeFrom i ts).map TimeEntry.task = ts := by
  intro ts
  induction ts with
  | nil => intro i; rfl
  | cons t ts ih => intro i; simp [decorateTimeFrom, ih]

theorem decorateOrigFrom_map_task :
    ∀ (ts : List Task) (i : Nat), (decorateOrigFrom i ts).map OrigEntry.task = ts := by
  intro ts
  induction ts with
  | nil => intro i; rfl
  | cons t ts ih => intro i; simp [decorateOrigFrom, ih]

theorem sortTasksByStart_strip_perm (l : List Task) :
    ((sortTasksByStart l).map stripPos).Perm (l.map stripPos) := by
  unfold sortTasksByStart
  rw [mapPosFrom_map_strip]
  have hp := (List.perm_insertionSort startLe (decorateTimeFrom 0 l)).map
    (fun e => stripPos e.task)
  refine hp.trans ?_
  rw [show (decorateTimeFrom 0 l).map (fun e => stripPos e.task)
      = ((decorateTimeFrom 0 l).map TimeEntry.task).map stripPos by rw [List.map_map]; rfl]
  rw [decorateTimeFrom_map_task]

theorem sortTasksByEnd_strip_perm (l : List Task) :
    ((sortTasksByEnd l).map stripPos).Perm (l.map stripPos) := by
  unfold sortTasksByEnd
  rw [mapPosFrom_map_strip]
  have hp := (List.perm_insertionSort endLe (decorateTimeFrom 0 l)).map
    (fun e => stripPos e.task)
  refine hp.trans ?_
  rw [show (decorateTimeFrom 0 l).map (fun e => stripPos e.task)
      = ((decorateTimeFrom 0 l).map TimeEntry.task).map stripPos by rw [List.map_map]; rfl]
  rw [decorateTimeFrom_map_task]

theorem reorderTasksById_strip_perm (l : List Task) (s : String) (t : Option String)
    (a : Bool) : ((reorderTasksById l s t a).map stripPos).Perm (l.map stripPos) := by
  unfold reorderTasksById
  split
  · exact List.Perm.refl _
  · split
    · exact List.Perm.refl _
    · next si hsi =>
      split
      · exact List.Perm.refl _
      · next moved hmoved =>
        have hlt : si < l.length := List.findIdx?_eq_some_iff_findIdx_eq.mp hsi |>.1
        have hmv : l.get ⟨si, hlt⟩ = moved := by
          rw [List.get?_eq_get hlt] at hmoved
          injection hmoved
        have hbase : ((moved :: l.eraseIdx si).map stripPos).Perm (l.map stripPos) := by
          rw [← hmv]
          exact (perm_get_cons_eraseIdx l si hlt).map stripPos
        have hins : ∀ k : Nat, k ≤ (l.eraseIdx si).length →
            ((mapPosFrom id 0 ((l.eraseIdx si).insertIdx k moved)).map stripPos).Perm
              (l.map stripPos) := by
          intro k hk
          rw [mapPosFrom_map_strip]
          simp only [id]
          exact (List.Perm.map stripPos (perm_insertIdx_cons moved k _ hk)).trans hbase
        have happ : ((mapPosFrom id 0 (l.eraseIdx si ++ [moved])).map stripPos).Perm
            (l.map stripPos) := by
          rw [mapPosFrom_map_strip]
          simp only [id]
          exact (List.Perm.map stripPos (List.perm_append_singleton moved _)).trans hbase
        repeat' split
        all_goals first
          | exact happ
          | (apply hins; first | exact Nat.min_le_right _ _ | simp | omega)

theorem applyOp_strip_perm (op : Op) (l : List Task) :
    ((applyOp op l).map stripPos).Perm (l.map stripPos) := by
  cases op with
  | reorder s t a => exact reorderTasksById_strip_perm l s t a
  | byStart => exact sortTasksByStart_strip_perm l
  | byEnd => exact sortTasksByEnd_strip_perm l

theorem applyOps_strip_perm (ops : List Op) :
    ∀ l, ((applyOps ops l).map stripPos).Perm (l.map stripPos) := by
  induction ops with
  | nil => intro l; exact List.Perm.refl _
  | cons op ops ih =>
    intro l
    exact (ih (applyOp op l)).trans (applyOp_strip_perm op l)

/-- Comparing tasks by `originalPosition` value, allowing equality of the
tasks themselves; with pairwise-distinct values this relation is
antisymmetric, making the sorted permutation unique. -/
def origValueLt (a b : Task) : Prop := origValue a < origValue b ∨ a = b

instance : IsAntisymm Task origValueLt where
  antisymm a b hab hba := by
    rcases hab with h1 | h1
    · rcases hba with h2 | h2
      · omega
      · exact h2.symm
    · exact h1

theorem origValue_stripPos (t : Task) : origValue (stripPos t) = origValue t := rfl

theorem mem_decorateOrigFrom : ∀ (L : List Task) (i : Nat) (e : OrigEntry),
    e ∈ decorateOrigFrom i L → e.task ∈ L ∧
      ((e.task.originalPosition).isSome = true → e.original = origValue e.task) := by
  intro L
  induction L with
  | nil => intro i e he; cases he
  | cons t ts ih =>
    intro i e he
    rw [decorateOrigFrom] at he
    rcases List.mem_cons.mp he with he | he
    · subst he
      refine ⟨List.mem_cons_self _ _, ?_⟩
      intro hs
      have hs' : t.originalPosition.isSome = true := hs
      show t.originalPosition.getD ((i : Nat) : Int) = origValue t
      cases ho : t.originalPosition with
      | none => rw [ho] at hs'; cases hs'
      | some v => simp [origValue, ho]
    · obtain ⟨h1, h2⟩ := ih (i + 1) e he
      exact ⟨List.mem_cons_of_mem _ h1, h2⟩

theorem decorateOrigFrom_map_original : ∀ (L : List Task) (i : Nat),
    (∀ t ∈ L, (t.originalPosition).isSome = true) →
    (decorateOrigFrom i L).map OrigEntry.original = L.map origValue := by
  intro L
  induction L with
  | nil => intro i _; rfl
  | cons t ts ih =>
    intro i hs
    rw [decorateOrigFrom, List.map_cons, List.map_cons,
      ih (i + 1) (fun u hu => hs u (List.mem_cons_of_mem _ hu))]
    congr 1
    have hs' : t.originalPosition.isSome = true := hs t (List.mem_cons_self _ _)
    show t.originalPosition.getD ((i : Nat) : Int) = origValue t
    cases ho : t.originalPosition with
    | none => rw [ho] at hs'; cases hs'
    | some v => simp [origValue, ho]

theorem eq_update_of_strip_eq (a b : Task) (p : Option Int) (h : stripPos a = stripPos b) :
    ({ a with position := p } : Task) = { b with position := p } := by
  cases a
  cases b
  simp only [stripPos, Task.mk.injEq] at h ⊢
  simp_all

theorem mapPosFrom_eq_map_id {α : Type} (f : α → Task) :
    ∀ (l : List α) (i : Nat), mapPosFrom f i l = mapPosFrom id i (l.map f) := by
  intro l
  induction l with
  | nil => intro i; rfl
  | cons e es ih =>
    intro i
    simp only [mapPosFrom, List.map_cons, ih (i + 1)]
    rfl

theorem mapPosFrom_id_eq : ∀ (xs ys : List Task) (i : Nat),
    xs.map stripPos = ys.map stripPos →
    (∀ k (h : k < ys.length), (ys.get ⟨k, h⟩).position = some ((i + k : Nat) : Int)) →
    mapPosFrom id i xs = ys := by
  intro xs
  induction xs with
  | nil =>
    intro ys i h _
    cases ys with
    | nil => rfl
    | cons y ys => simp at h
  | cons x xs ih =>
    intro ys i h hpos
    cases ys with
    | nil => simp at h
    | cons y ys =>
      simp only [List.map_cons, List.cons.injEq] at h
      obtain ⟨h1, h2⟩ := h
      rw [mapPosFrom]
      congr 1
      · have hy' : y.position = some ((i : Nat) : Int) := by
          simpa using hpos 0 (by simp)
        have hupd := eq_update_of_strip_eq x y (some ((i : Nat) : Int)) h1
        show ({ x with position := some ((i : Nat) : Int) } : Task) = y
        rw [hupd, ← hy']
      · apply ih ys (i + 1) h2
        intro k hk
        have hstep := hpos (k + 1) (by simp only [List.length_cons]; omega)
        have harith : (i + (k + 1) : Nat) = i + 1 + k := by omega
        rw [harith] at hstep
        exact hstep

/-- The heart of the restoration claim: `sortTasksByOriginalPosition` maps any
list that agrees with a baseline `T0` up to a permutation and `position`
rewrites — provided `T0` carries strictly increasing `originalPosition`
values and dense positions — back onto `T0` itself. -/
theorem sortByOriginal_restores (L T0 : List Task)
    (hperm : (L.map stripPos).Perm (T0.map stripPos))
    (hsome : ∀ t ∈ T0, (t.originalPosition).isSome = true)
    (hpair : List.Pairwise (fun a b => origValue a < origValue b) T0)
    (hpos : ∀ k (h : k < T0.length), (T0.get ⟨k, h⟩).position = some ((k : Nat) : Int)) :
    sortTasksByOriginalPosition L = T0 := by
  have hsomeL : ∀ t ∈ L, (t.originalPosition).isSome = true := by
    intro t ht
    have hmem : stripPos t ∈ T0.map stripPos :=
      hperm.mem_iff.mp (List.mem_map_of_mem stripPos ht)
    obtain ⟨u, hu, hequ⟩ := List.mem_map.mp hmem
    have hto : (stripPos t).originalPosition = (stripPos u).originalPosition :=
      congrArg (fun x => Task.originalPosition x) hequ.symm
    have hto' : t.originalPosition = u.originalPosition := hto
    rw [hto']
    exact hsome u hu
  set sorted := List.insertionSort origLe (decorateOrigFrom 0 L) with hsorteddef
  have hpermE : sorted.Perm (decorateOrigFrom 0 L) := List.perm_insertionSort origLe _
  have hsortedE : List.Sorted origLe sorted := List.sorted_insertionSort origLe _
  have hmapOrig : (decorateOrigFrom 0 L).map OrigEntry.original = L.map origValue :=
    decorateOrigFrom_map_original L 0 hsomeL
  have hLorig : (L.map origValue).Perm (T0.map origValue) := by
    have h1 : L.map origValue = (L.map stripPos).map origValue := by
      rw [List.map_map]; rfl
    have h2 : T0.map origValue = (T0.map stripPos).map origValue := by
      rw [List.map_map]; rfl
    rw [h1, h2]
    exact hperm.map origValue
  have hnodupT0 : (T0.map origValue).Nodup := by
    have hne : List.Pairwise (fun a b : Task => origValue a ≠ origValue b) T0 :=
      hpair.imp (fun h => ne_of_lt h)
    exact List.pairwise_map.mpr hne
  have hmapPerm : (sorted.map OrigEntry.original).Perm (T0.map origValue) := by
    have h1 := hpermE.map OrigEntry.original
    rw [hmapOrig] at h1
    exact h1.trans hLorig
  have hnodupS : (sorted.map OrigEntry.original).Nodup := hmapPerm.nodup_iff.mpr hnodupT0
  have hneS : List.Pairwise (fun e1 e2 : OrigEntry => e1.original ≠ e2.original) sorted :=
    List.pairwise_map.mp hnodupS
  have hP : List.Pairwise origLe sorted := hsortedE
  have hltS : List.Pairwise (fun e1 e2 : OrigEntry => e1.original < e2.original) sorted := by
    refine List.Pairwise.imp ?_ (hP.and hneS)
    intro a b hab
    obtain ⟨h1, h2⟩ := hab
    rcases h1 with h | h
    · exact h
    · exact absurd h.1 h2
  have hmemS : ∀ e ∈ sorted, e.original = origValue e.task := by
    intro e he
    have heE : e ∈ decorateOrigFrom 0 L := hpermE.mem_iff.mp he
    obtain ⟨htask, horig⟩ := mem_decorateOrigFrom L 0 e heE
    exact horig (hsomeL _ htask)
  have hltS' : List.Pairwise
      (fun e1 e2 : OrigEntry => origValueLt (stripPos e1.task) (stripPos e2.task)) sorted := by
    refine List.Pairwise.imp_of_mem ?_ hltS
    intro a b ha hb hlt
    left
    rw [origValue_stripPos, origValue_stripPos, ← hmemS a ha, ← hmemS b hb]
    exact hlt
  have hsortedTasks : List.Sorted origValueLt ((sorted.map OrigEntry.task).map stripPos) := by
    rw [List.map_map]
    exact List.pairwise_map.mpr hltS'
  have hT0sorted : List.Sorted origValueLt (T0.map stripPos) := by
    refine List.pairwise_map.mpr (List.Pairwise.imp ?_ hpair)
    intro a b h
    left
    rw [origValue_stripPos, origValue_stripPos]
    exact h
  have hpermTasks : ((sorted.map OrigEntry.task).map stripPos).Perm (T0.map stripPos) := by
    have h1 := (hpermE.map OrigEntry.task).map stripPos
    rw [decorateOrigFrom_map_task] at h1
    exact h1.trans hperm
  have hEq : (sorted.map OrigEntry.task).map stripPos = T0.map stripPos :=
    List.eq_of_perm_of_sorted hpermTasks hsortedTasks hT0sorted
  unfold sortTasksByOriginalPosition
  rw [← hsorteddef, mapPosFrom_eq_map_id]
  apply mapPosFrom_id_eq _ _ 0 hEq
  intro k h
  have := hpos k h
  simpa using this

theorem applyPositionsFrom_origSome : ∀ (l : List OrderEntry) (i : Nat),
    ∀ t ∈ applyPositionsFrom i l, (t.originalPosition).isSome = true := by
  intro l
  induction l with
  | nil => intro i t ht; cases ht
  | cons e es ih =>
    intro i t ht
    rw [applyPositionsFrom] at ht
    rcases List.mem_cons.mp ht with ht | ht
    · subst ht; rfl
    · exact ih (i + 1) t ht

theorem ensureStableOrder_origSome (ts : List Task) :
    ∀ t ∈ ensureStableOrder ts, (t.originalPosition).isSome = true := by
  intro t ht
  unfold ensureStableOrder at ht
  exact applyPositionsFrom_origSome _ 0 t ht

theorem applyPositionsFrom_get_position : ∀ (l : List OrderEntry) (i k : Nat)
    (h : k < (applyPositionsFrom i l).length),
    ((applyPositionsFrom i l).get ⟨k, h⟩).position = some ((i + k : Nat) : Int) := by
  intro l
  induction l with
  | nil => intro i k h; simp [applyPositionsFrom] at h
  | cons e es ih =>
    intro i k h
    cases k with
    | zero =>
      show ({ e.task with
          position := some ((i : Nat) : Int),
          originalPosition := some (e.task.originalPosition.getD ((i : Nat) : Int)) }
            : Task).position
        = some ((i + 0 : Nat) : Int)
      simp
    | succ k =>
      have h' : k < (applyPositionsFrom (i + 1) es).length := by
        rw [applyPositionsFrom] at h
        simpa using h
      have hrec := ih (i + 1) k h'
      have harith : (i + 1 + k : Nat) = i + (k + 1) := by omega
      rw [harith] at hrec
      exact hrec

theorem ensureStableOrder_get_position (ts : List Task) (k : Nat)
    (h : k < (ensureStableOrder ts).length) :
    ((ensureStableOrder ts).get ⟨k, h⟩).position = some ((k : Nat) : Int) := by
  have h' : k < (applyPositionsFrom 0 (List.insertionSort stableLe (decorateFrom 0 ts))).length := h
  have hrec := applyPositionsFrom_get_position _ 0 k h'
  simpa using hrec

/-- **C6 (amended).** For every task list produced by an initial normalisation
(`normaliseTaskCollection`) whose `originalPosition` values come out strictly
increasing along the list — which is the case whenever the incoming records
carry no explicit `position` overrides, but can fail when they do (see the
counterexample) — and for every finite sequence of drag-reorders
(`reorderTasksById`) and time-based sorts (`sortTasksByStart` /
`sortTasksByEnd`) applied to it, `sortTasksByOriginalPosition` recovers
exactly the order of the normalised list. -/
theorem c6_original_order_restorable (gen : Nat → String) (records : List RawRecord)
    (ops : List Op)
    (hpair : List.Pairwise (fun a b => origValue a < origValue b)
      (normaliseTaskCollection gen records)) :
    sortTasksByOriginalPosition (applyOps ops (normaliseTaskCollection gen records))
      = normaliseTaskCollection gen records := by
  refine sortByOriginal_restores _ _ (applyOps_strip_perm ops _) ?_ hpair ?_
  · intro t ht
    exact ensureStableOrder_origSome _ t ht
  · intro k h
    exact ensureStableOrder_get_position _ k h

/-- A record with an explicit `position` override, for the C6 counterexample. -/
def recC6x1 : RawRecord :=
  { id := some "x1", name := some "First", start := some "2025-01-01T10:00",
    end_ := some "2025-01-01T12:00", color := none, colorLabel := none,
    outline := none, presetKey := none, position := some 1, originalPosition := none }

/-- The second record of the C6 counterexample, positioned before the first. -/
def recC6x2 : RawRecord :=
  { id := some "x2", name := some "Second", start := some "2025-01-02T10:00",
    end_ := some "2025-01-02T12:00", color := none, colorLabel := none,
    outline := none, presetKey := none, position := some 0, originalPosition := none }

/-- **C6, counterexample.** The claim quantifies over *every* initially
normalised list, but normalisation derives `originalPosition` from the batch
index while ordering the output by the records' explicit `position` values.
Two records listed as `x1` (position 1) and `x2` (position 0) normalise to
the list `[x2, x1]` with original positions `[1, 0]`; `sortByOriginal` then
yields `[x1, x2]` — it does not recover the normalised order even before any
reorder or sort is applied. -/
theorem c6_counterexample :
    sortTasksByOriginalPosition (applyOps []
        (normaliseTaskCollection (fun _ => "gid") [recC6x1, recC6x2]))
      ≠ normaliseTaskCollection (fun _ => "gid") [recC6x1, recC6x2]
    ∧ (normaliseTaskCollection (fun _ => "gid") [recC6x1, recC6x2]).map Task.id
        = ["x2", "x1"]
    ∧ (sortTasksByOriginalPosition (applyOps []
        (normaliseTaskCollection (fun _ => "gid") [recC6x1, recC6x2]))).map Task.id
        = ["x1", "x2"] := by
  refine ⟨?_, ?_, ?_⟩ <;> decide

/-- A plain record without position overrides, for the C6 witness. -/
def recC6w1 : RawRecord :=
  { id := some "w1", name := some "Alpha", start := some "2025-01-01T10:00",
    end_ := some "2025-01-01T12:00", color := none, colorLabel := none,
    outline := none, presetKey := none, position := none, originalPosition := none }

/-- A second plain record, for the C6 witness. -/
def recC6w2 : RawRecord :=
  { id := some "w2", name := some "Beta", start := some "2025-01-02T10:00",
    end_ := some "2025-01-02T12:00", color := none, colorLabel := none,
    outline := none, presetKey := none, position := none, originalPosition := none }

set_option maxRecDepth 100000 in
/-- Witness for C6: two plainly normalised records, shuffled by an end-sort
followed by a start-sort, are restored to the normalised order. -/
theorem c6_original_order_restorable_witness :
    List.Pairwise (fun a b => origValue a < origValue b)
      (normaliseTaskCollection (fun _ => "gid") [recC6w1, recC6w2])
    ∧ sortTasksByOriginalPosition (applyOps [Op.byEnd, Op.byStart]
        (normaliseTaskCollection (fun _ => "gid") [recC6w1, recC6w2]))
      = normaliseTaskCollection (fun _ => "gid") [recC6w1, recC6w2] :=
  ⟨by decide, c6_original_order_restorable (fun _ => "gid") [recC6w1, recC6w2]
    [Op.byEnd, Op.byStart] (by decide)⟩

/-! ## Claim C1: the CSV round trip -/

/-- What `normaliseTaskCollection` guarantees of every task it emits, as far
as the CSV codec needs it: the name is its own trimmed non-blank form, and
the `start`/`end` strings are ISO renderings of valid dates in the right
order. -/
def NormTaskInv (t : Task) : Prop :=
  stringOrNull t.name = some t.name
  ∧ ∃ ds de : JsDate, ds.Valid ∧ de.Valid ∧ ds.getTime ≤ de.getTime
      ∧ t.start = formatIsoLocal ds ∧ t.end_ = formatIsoLocal de

theorem jsTrim_idem (s : String) : jsTrim (jsTrim s) = jsTrim s := by
  show (⟨trimChars (trimChars s.data)⟩ : String) = ⟨trimChars s.data⟩
  rw [trimChars_idem]

theorem stringOrNull_eq_self {s : String} (h1 : jsTrim s = s) (h2 : ¬ s = "") :
    stringOrNull s = some s := by
  simp only [stringOrNull]
  rw [h1, if_neg h2]

theorem stringOrNull_idem (s t : String) (h : stringOrNull s = some t) :
    stringOrNull t = some t := by
  simp only [stringOrNull] at h
  split at h
  · cases h
  · next hne =>
    injection h with h
    subst h
    simp only [stringOrNull]
    rw [jsTrim_idem, if_neg hne]

theorem taskDefault_data (i : Nat) : ("Task " ++ natToString (i + 1)).data
    = 'T' :: 'a' :: 's' :: 'k' :: ' ' :: natDigitsAux (i + 1) := by
  rw [String.data_append]
  rfl

theorem stringOrNull_default (i : Nat) :
    stringOrNull ("Task " ++ natToString (i + 1)) = some ("Task " ++ natToString (i + 1)) := by
  have htrim : trimChars (("Task " ++ natToString (i + 1)).data)
      = ("Task " ++ natToString (i + 1)).data := by
    rw [taskDefault_data]
    apply trimChars_eq_self
    · intro c hc
      cases hc
      decide
    · intro c hc
      rw [show ('T' :: 'a' :: 's' :: 'k' :: ' ' :: natDigitsAux (i + 1))
          = ['T', 'a', 's', 'k', ' '] ++ natDigitsAux (i + 1) from rfl,
        List.getLast?_append_of_ne_nil _ (natDigitsAux_ne_nil _)] at hc
      obtain ⟨hne2, hceq⟩ := List.mem_getLast?_eq_getLast (Option.mem_def.mpr hc)
      obtain ⟨k, hk, hck⟩ := natDigitsAux_chars (i + 1) c (hceq ▸ List.getLast_mem hne2)
      rw [hck]
      exact digitChar_not_ws hk
  apply stringOrNull_eq_self
  · show (⟨trimChars ("Task " ++ natToString (i + 1)).data⟩ : String) = _
    rw [htrim]
  · intro he
    have hd := congrArg String.data he
    rw [taskDefault_data] at hd
    cases hd

theorem stringOrNull_formatCsv (dt : JsDate) (h : dt.second ≤ 99) :
    stringOrNull ⟨formatCsvChars dt⟩ = some ⟨formatCsvChars dt⟩ := by
  apply stringOrNull_eq_self
  · show (⟨trimChars (formatCsvChars dt)⟩ : String) = _
    rw [trimChars_formatCsv dt h]
  · intro he
    exact formatCsvChars_ne_nil dt (congrArg String.data he)

/-- Every task kept by `normaliseTaskRecord` satisfies the codec
invariant. -/
theorem normaliseTaskRecord_inv (genId : String) (record : RawRecord) (index : Nat)
    (t : Task) (h : normaliseTaskRecord genId record index = some t) : NormTaskInv t := by
  unfold normaliseTaskRecord at h
  split at h
  · next startDate endDate0 hds hde =>
    have hdsv : startDate.Valid := by
      obtain ⟨s, hs, hcs⟩ := Option.bind_eq_some.mp hds
      exact coerceToDate_valid s startDate hcs
    have hdev : endDate0.Valid := by
      obtain ⟨s, hs, hcs⟩ := Option.bind_eq_some.mp hde
      exact coerceToDate_valid s endDate0 hcs
    injection h with h
    subst h
    constructor
    · show stringOrNull ((record.name.bind stringOrNull).getD ("Task " ++ natToString (index + 1)))
        = some ((record.name.bind stringOrNull).getD ("Task " ++ natToString (index + 1)))
      cases hn : record.name.bind stringOrNull with
      | none =>
        show stringOrNull ("Task " ++ natToString (index + 1))
          = some ("Task " ++ natToString (index + 1))
        exact stringOrNull_default index
      | some s' =>
        show stringOrNull s' = some s'
        obtain ⟨s0, hs0, hs0'⟩ := Option.bind_eq_some.mp hn
        exact stringOrNull_idem s0 s' hs0'
    · refine ⟨startDate,
        if endDate0.getTime < startDate.getTime then addOneHour startDate else endDate0,
        hdsv, ?_, ?_, rfl, rfl⟩
      · split
        · exact valid_addOneHour startDate hdsv
        · exact hdev
      · split
        · next hlt => rw [getTime_addOneHour startDate hdsv]; omega
        · next hlt => omega
  · cases h

theorem normInv_update (t : Task) (p q : Option Int) (h : NormTaskInv t) :
    NormTaskInv { t with position := p, originalPosition := q } := h

theorem normTaskCollectionFrom_inv (gen : Nat → String) :
    ∀ (records : List RawRecord) (i : Nat),
    ∀ t ∈ normaliseTaskCollectionFrom gen i records, NormTaskInv t := by
  intro records
  induction records with
  | nil => intro i t ht; cases ht
  | cons r rs ih =>
    intro i t ht
    rw [normaliseTaskCollectionFrom] at ht
    split at ht
    · next item hitem =>
      rcases List.mem_cons.mp ht with ht | ht
      · subst ht
        exact normInv_update _ _ _ (normaliseTaskRecord_inv _ _ _ _ hitem)
      · exact ih (i + 1) t ht
    · exact ih (i + 1) t ht

theorem mem_decorateFrom_task : ∀ (ts : List Task) (i : Nat) (e : OrderEntry),
    e ∈ decorateFrom i ts → e.task ∈ ts := by
  intro ts
  induction ts with
  | nil => intro i e he; cases he
  | cons t ts ih =>
    intro i e he
    rw [decorateFrom] at he
    rcases List.mem_cons.mp he with he | he
    · subst he; exact List.mem_cons_self _ _
    · exact List.mem_cons_of_mem _ (ih (i + 1) e he)

theorem mem_applyPositionsFrom_shape : ∀ (l : List OrderEntry) (i : Nat) (u : Task),
    u ∈ applyPositionsFrom i l →
    ∃ e, e ∈ l ∧ u.name = e.task.name ∧ u.start = e.task.start ∧ u.end_ = e.task.end_ := by
  intro l
  induction l with
  | nil => intro i u hu; cases hu
  | cons e es ih =>
    intro i u hu
    rw [applyPositionsFrom] at hu
    rcases List.mem_cons.mp hu with hu | hu
    · subst hu
      exact ⟨e, List.mem_cons_self _ _, rfl, rfl, rfl⟩
    · obtain ⟨e', he', h1, h2, h3⟩ := ih (i + 1) u hu
      exact ⟨e', List.mem_cons_of_mem _ he', h1, h2, h3⟩

theorem ensureStableOrder_inv (ts : List Task) (h : ∀ t ∈ ts, NormTaskInv t) :
    ∀ u ∈ ensureStableOrder ts, NormTaskInv u := by
  intro u hu
  unfold ensureStableOrder at hu
  obtain ⟨e, he, hn, hs, hev⟩ := mem_applyPositionsFrom_shape _ _ _ hu
  have he' : e ∈ decorateFrom 0 ts := (List.perm_insertionSort stableLe _).mem_iff.mp he
  obtain ⟨hname, ds, de, h1, h2, h3, h4, h5⟩ := h e.task (mem_decorateFrom_task ts 0 e he')
  refine ⟨?_, ds, de, h1, h2, h3, ?_, ?_⟩
  · rw [hn]; exact hname
  · rw [hs]; exact h4
  · rw [hev]; exact h5

theorem normaliseTaskCollection_inv (gen : Nat → String) (records : List RawRecord) :
    ∀ t ∈ normaliseTaskCollection gen records, NormTaskInv t := by
  intro t ht
  exact ensureStableOrder_inv _ (normTaskCollectionFrom_inv gen records 0) t ht

/-- The decode side of one record whose fields carry a re-readable name and
CSV-formatted dates: `normaliseTaskRecord` reconstructs the name, start and
end exactly, and takes the record's explicit positions. -/
theorem decode_step (g : String) (rec : RawRecord) (i : Nat) (t : Task)
    (ds de : JsDate) (hdsv : ds.Valid) (hdev : de.Valid) (hle : ds.getTime ≤ de.getTime)
    (hstart : t.start = formatIsoLocal ds) (hend : t.end_ = formatIsoLocal de)
    (hrs : rec.start = some ⟨formatCsvChars ds⟩)
    (hre : rec.end_ = some ⟨formatCsvChars de⟩)
    (hrn : rec.name = some t.name)
    (hname : stringOrNull t.name = some t.name)
    (hrp : rec.position = some ((i : Nat) : Int))
    (hro : rec.originalPosition = some ((i : Nat) : Int)) :
    ∃ u, normaliseTaskRecord g rec i = some u
      ∧ u.name = t.name ∧ u.start = t.start ∧ u.end_ = t.end_
      ∧ u.position = some ((i : Nat) : Int)
      ∧ u.originalPosition = some ((i : Nat) : Int) := by
  have hds' : rec.start.bind (fun s => coerceToDate s) = some ds := by
    rw [hrs]
    show coerceToDate ⟨formatCsvChars ds⟩ = some ds
    exact coerceToDate_formatCsv ds hdsv
  have hde' : rec.end_.bind (fun s => coerceToDate s) = some de := by
    rw [hre]
    show coerceToDate ⟨formatCsvChars de⟩ = some de
    exact coerceToDate_formatCsv de hdev
  unfold normaliseTaskRecord
  rw [hds', hde']
  refine ⟨_, rfl, ?_, ?_, ?_, ?_, ?_⟩
  · show ((rec.name.bind stringOrNull).getD ("Task " ++ natToString (i + 1))) = t.name
    rw [hrn]
    show (stringOrNull t.name).getD ("Task " ++ natToString (i + 1)) = t.name
    rw [hname]
    rfl
  · show formatIsoLocal ds = t.start
    exact hstart.symm
  · show formatIsoLocal (if de.getTime < ds.getTime then addOneHour ds else de) = t.end_
    rw [if_neg (not_lt.mpr hle)]
    exact hend.symm
  · show some (rec.position.getD ((i : Nat) : Int)) = some ((i : Nat) : Int)
    rw [hrp]
    rfl
  · show some (rec.originalPosition.getD ((i : Nat) : Int)) = some ((i : Nat) : Int)
    rw [hro]
    rfl

theorem normaliseTaskCollectionFrom_cons_some (gen : Nat → String) (i : Nat) (r : RawRecord)
    (rs : List RawRecord) (item : Task) (h : normaliseTaskRecord (gen i) r i = some item) :
    normaliseTaskCollectionFrom gen i (r :: rs)
      = { item with
          position := some (item.position.getD i),
          originalPosition := some (item.originalPosition.getD i) }
        :: normaliseTaskCollectionFrom gen (i + 1) rs := by
  rw [normaliseTaskCollectionFrom, h]

/-- One cons step of the decode pipeline `csvPrepareFrom ∘ tasksToCsv ∘
normaliseTaskCollectionFrom`: a task satisfying the codec invariant comes
back with its name, start and end intact and the row index as both
positions. -/
theorem decode_cons (gen' : Nat → String) (t : Task) (ts : List Task) (i : Nat)
    (h : NormTaskInv t) :
    ∃ v, normaliseTaskCollectionFrom gen' i (csvPrepareFrom i (tasksToCsv (t :: ts)))
        = v :: normaliseTaskCollectionFrom gen' (i + 1) (csvPrepareFrom (i + 1) (tasksToCsv ts))
      ∧ v.name = t.name ∧ v.start = t.start ∧ v.end_ = t.end_
      ∧ v.position = some ((i : Nat) : Int)
      ∧ v.originalPosition = some ((i : Nat) : Int) := by
  obtain ⟨hname, ds, de, hdsv, hdev, hle, hstart, hend⟩ := h
  have hs99 : ds.second ≤ 99 := by
    have hv := hdsv
    simp only [JsDate.Valid, JsDate.validB, Bool.and_eq_true, decide_eq_true_eq] at hv
    omega
  have he99 : de.second ≤ 99 := by
    have hv := hdev
    simp only [JsDate.Valid, JsDate.validB, Bool.and_eq_true, decide_eq_true_eq] at hv
    omega
  have hfs : formatCsvDate t.start = ⟨formatCsvChars ds⟩ := by
    rw [hstart]
    exact formatCsvDate_formatIsoLocal ds hdsv
  have hfe : formatCsvDate t.end_ = ⟨formatCsvChars de⟩ := by
    rw [hend]
    exact formatCsvDate_formatIsoLocal de hdev
  have hboth : csvPrepareFrom i (tasksToCsv (t :: ts))
      = { id := none,
          name := some ((stringOrNull t.name).getD ("Task " ++ natToString (i + 1))),
          start := stringOrNull (formatCsvDate t.start),
          end_ := stringOrNull (formatCsvDate t.end_),
          color := stringOrNull t.colorLabel,
          colorLabel := stringOrNull t.colorLabel,
          outline := none, presetKey := none,
          position := some ((i : Nat) : Int),
          originalPosition := some ((i : Nat) : Int) }
        :: csvPrepareFrom (i + 1) (tasksToCsv ts) := rfl
  rw [hboth, hfs, hfe, stringOrNull_formatCsv ds hs99, stringOrNull_formatCsv de he99,
    hname, Option.getD_some]
  obtain ⟨u, hu, hun, hus, hue, hup, huo⟩ := decode_step (gen' i)
    { id := none, name := some t.name, start := some ⟨formatCsvChars ds⟩,
      end_ := some ⟨formatCsvChars de⟩, color := stringOrNull t.colorLabel,
      colorLabel := stringOrNull t.colorLabel, outline := none, presetKey := none,
      position := some ((i : Nat) : Int), originalPosition := some ((i : Nat) : Int) }
    i t ds de hdsv hdev hle hstart hend rfl rfl rfl hname rfl rfl
  rw [normaliseTaskCollectionFrom_cons_some gen' i _ _ u hu]
  refine ⟨_, rfl, ?_, ?_, ?_, ?_, ?_⟩
  · exact hun
  · exact hus
  · exact hue
  · show some (u.position.getD ((i : Nat) : Int)) = some ((i : Nat) : Int)
    rw [hup]
    rfl
  · show some (u.originalPosition.getD ((i : Nat) : Int)) = some ((i : Nat) : Int)
    rw [huo]
    rfl

/-- The decode pipeline on a whole invariant-satisfying list, from any start
index: names, starts and ends come back verbatim, positions are the dense
indices, and every original position is set. -/
theorem csvDecodeFrom (gen' : Nat → String) : ∀ (ts : List Task) (i : Nat),
    (∀ t ∈ ts, NormTaskInv t) →
    (normaliseTaskCollectionFrom gen' i (csvPrepareFrom i (tasksToCsv ts))).map
        (fun u => (u.name, u.start, u.end_))
      = ts.map (fun u => (u.name, u.start, u.end_))
    ∧ (∀ k (h : k < (normaliseTaskCollectionFrom gen' i
          (csvPrepareFrom i (tasksToCsv ts))).length),
        ((normaliseTaskCollectionFrom gen' i (csvPrepareFrom i (tasksToCsv ts))).get
          ⟨k, h⟩).position = some ((i + k : Nat) : Int))
    ∧ (∀ u ∈ normaliseTaskCollectionFrom gen' i (csvPrepareFrom i (tasksToCsv ts)),
        (u.originalPosition).isSome = true) := by
  intro ts
  induction ts with
  | nil =>
    intro i _
    refine ⟨rfl, ?_, ?_⟩
    · intro k h
      rw [show normaliseTaskCollectionFrom gen' i (csvPrepareFrom i (tasksToCsv ([] : List Task)))
          = [] from rfl] at h
      simp at h
    · intro u hu
      rw [show normaliseTaskCollectionFrom gen' i (csvPrepareFrom i (tasksToCsv ([] : List Task)))
          = [] from rfl] at hu
      cases hu
  | cons t ts ih =>
    intro i hinv
    obtain ⟨v, hv, hvn, hvs, hve, hvp, hvo⟩ :=
      decode_cons gen' t ts i (hinv t (List.mem_cons_self _ _))
    obtain ⟨hmap', hpos', horig'⟩ := ih (i + 1) (fun u hu => hinv u (List.mem_cons_of_mem _ hu))
    rw [hv]
    refine ⟨?_, ?_, ?_⟩
    · rw [List.map_cons, List.map_cons, hmap', hvn, hvs, hve]
    · intro k h
      cases k with
      | zero =>
        show v.position = some ((i + 0 : Nat) : Int)
        simpa using hvp
      | succ k =>
        have h' : k < (normaliseTaskCollectionFrom gen' (i + 1)
            (csvPrepareFrom (i + 1) (tasksToCsv ts))).length := by
          simpa using h
        have hrec := hpos' k h'
        have harith : (i + 1 + k : Nat) = i + (k + 1) := by omega
        rw [harith] at hrec
        exact hrec
    · intro u hu
      rcases List.mem_cons.mp hu with hu | hu
      · subst hu
        rw [hvo]
        rfl
      · exact horig' u hu

/-- **C1 (amended).** For every normalised task list, decoding the CSV
produced by encoding it (`convertCsvRowsToTasks` on the rows of `tasksToCsv`,
with any id generators on either side) yields a list of the same length whose
tasks agree pointwise — in the original relative order — on name, start and
end.  The other fields of the claim do not survive: the codec never emits the
id (it is regenerated) and stores only the color *label*, from which the
color is re-derived (see the counterexample). -/
theorem c1_csv_round_trip (gen gen' : Nat → String) (records : List RawRecord) :
    (convertCsvRowsToTasks gen' (tasksToCsv (normaliseTaskCollection gen records))).length
      = (normaliseTaskCollection gen records).length
    ∧ (convertCsvRowsToTasks gen' (tasksToCsv (normaliseTaskCollection gen records))).map
        (fun u => (u.name, u.start, u.end_))
      = (normaliseTaskCollection gen records).map (fun u => (u.name, u.start, u.end_)) := by
  set T := normaliseTaskCollection gen records with hT
  have hinv : ∀ t ∈ T, NormTaskInv t := by
    rw [hT]
    exact normaliseTaskCollection_inv gen records
  obtain ⟨hmap, hpos, horig⟩ := csvDecodeFrom gen' T 0 hinv
  have hmain : convertCsvRowsToTasks gen' (tasksToCsv T)
      = normaliseTaskCollectionFrom gen' 0 (csvPrepareFrom 0 (tasksToCsv T)) := by
    unfold convertCsvRowsToTasks normaliseTaskCollection ensureStableOrder
    rw [(decorateFrom_sorted_of_dense _ 0 hpos).insertionSort_eq]
    exact applyPositionsFrom_decorateFrom_eq _ 0 hpos horig
  constructor
  · rw [hmain]
    have hlen := congrArg List.length hmap
    simpa using hlen
  · rw [hmain, hmap]

/-- The concrete record of the C1 counterexample: an explicit id and an
explicit hex color with a non-preset label. -/
def recC1 : RawRecord :=
  { id := some "t1", name := some "Jobs", start := some "2025-01-01T10:00",
    end_ := some "2025-01-02T10:00", color := some "#123456",
    colorLabel := some "My Label", outline := none, presetKey := none,
    position := none, originalPosition := none }

set_option maxRecDepth 100000 in
/-- **C1, counterexample.** The CSV has no id column and stores only the
color *label*: decoding the encoded list regenerates the id (`"gid2"`, not
`"t1"`) and resolves the color from the label alone, so the custom hex
`#123456` with label `"My Label"` comes back as the default preset color
`#f5642d` — the round trip is not the identity on id or color. -/
theorem c1_counterexample :
    ((normaliseTaskCollection (fun _ => "gid") [recC1]).map (fun u => (u.id, u.color))
        = [("t1", "#123456")])
    ∧ ((convertCsvRowsToTasks (fun _ => "gid2") (tasksToCsv
          (normaliseTaskCollection (fun _ => "gid") [recC1]))).map (fun u => (u.id, u.color))
        = [("gid2", "#f5642d")])
    ∧ (convertCsvRowsToTasks (fun _ => "gid2") (tasksToCsv
          (normaliseTaskCollection (fun _ => "gid") [recC1]))
        ≠ normaliseTaskCollection (fun _ => "gid") [recC1]) := by
  refine ⟨?_, ?_, ?_⟩ <;> decide

end Gantt
